import Mathlib

/-!
# A verification development for the docopt.cpp argument parser

This file gives a shallow embedding, in Lean 4, of the docopt.cpp library
(files `docopt.cpp`, `docopt_private.h`, `docopt_value.h`, `docopt_util.h`)
and proves properties of the embedded functions.

Modelling conventions:
* C++ reference parameters that a function updates (`left`, `collected`,
  the token cursor, the option catalog) become explicit state that is
  passed in and returned.
* C++ exceptions become an `Except DocoptError` result.  The undocumented
  `std::out_of_range` that `Tokens::pop` (`fTokens.at(fIndex++)`) raises when
  the cursor is past the end is modelled by the distinguished error
  `DocoptError.outOfRange`, since `docopt_parse` does not catch it.
* Recursions whose termination argument is extrinsic (the matcher over the
  nested pattern tree, the `while` loops) take an explicit fuel argument so
  that every definition is a structural recursion that the kernel can
  evaluate; each entry point supplies fuel that is proved (or argued in its
  doc comment) sufficient, and fuel-stability lemmas are provided where the
  theorems need them.
* `std::shared_ptr` aliasing is replaced by values.  `fix_identities`
  deduplicates structurally equal nodes so that the leaf mutations done by
  `fix_repeating_arguments` hit every structurally equal occurrence; in the
  value model this composition is exactly "rewrite every structurally equal
  leaf occurrence", so `Pattern.fix` performs that rewrite and
  `fix_identities` itself has no further value-level effect.
* The structural hash (`PatternHasher` together with hash-as-equality in
  `PatternPointerEquality`) is modelled as equality of the hashed data,
  i.e. hash collisions are assumed absent, which is the stated intent.
* `std::map<std::string, value>` is modelled as an association list with
  insert-or-assign update (`mapUpsert`).
-/

set_option maxHeartbeats 1000000

namespace Docopt

/-- `docopt::value` (docopt_value.h): tagged union of the five result
shapes. `Kind::Long` holds a C++ `long`, modelled as `Int`. -/
inductive Value where
  | empty : Value
  | bool (b : Bool) : Value
  | long (n : Int) : Value
  | str (s : String) : Value
  | strList (l : List String) : Value

deriving DecidableEq

/-- `value::operator bool()`: a value is truthy iff its kind is not Empty. -/
def Value.truthy : Value → Bool
  | .empty => false
  | _ => true

/-- The pattern tree (docopt_private.h).  Leaves are `Argument`, `Command`
(a subclass of `Argument`) and `Option`; branches are `Required`,
`Optional`, `OptionsShortcut` (a subclass of `Optional`), `OneOrMore` and
`Either`, each carrying an ordered child list. -/
inductive Pattern where
  | argument (name : String) (v : Value) : Pattern
  | command (name : String) (v : Value) : Pattern
  | option (shortOpt longOpt : String) (argcount : Nat) (v : Value) : Pattern
  | required (children : List Pattern) : Pattern
  | optional (children : List Pattern) : Pattern
  | optionsShortcut (children : List Pattern) : Pattern
  | oneOrMore (children : List Pattern) : Pattern
  | either (children : List Pattern) : Pattern

mutual

/-- Structural decidable equality for the nested `Pattern` type. -/
def decEqPattern : (a b : Pattern) → Decidable (a = b)
  | .argument n v, .argument n' v' =>
    if h : n = n' ∧ v = v' then .isTrue (by rw [h.1, h.2])
    else .isFalse (fun he => by injection he with h1 h2; exact h ⟨h1, h2⟩)
  | .command n v, .command n' v' =>
    if h : n = n' ∧ v = v' then .isTrue (by rw [h.1, h.2])
    else .isFalse (fun he => by injection he with h1 h2; exact h ⟨h1, h2⟩)
  | .option s l a v, .option s' l' a' v' =>
    if h : s = s' ∧ l = l' ∧ a = a' ∧ v = v' then
      .isTrue (by rw [h.1, h.2.1, h.2.2.1, h.2.2.2])
    else .isFalse (fun he => by
      injection he with h1 h2 h3 h4; exact h ⟨h1, h2, h3, h4⟩)
  | .required cs, .required cs' =>
    match decEqPatternList cs cs' with
    | .isTrue h => .isTrue (by rw [h])
    | .isFalse h => .isFalse (fun he => by injection he with h1; exact h h1)
  | .optional cs, .optional cs' =>
    match decEqPatternList cs cs' with
    | .isTrue h => .isTrue (by rw [h])
    | .isFalse h => .isFalse (fun he => by injection he with h1; exact h h1)
  | .optionsShortcut cs, .optionsShortcut cs' =>
    match decEqPatternList cs cs' with
    | .isTrue h => .isTrue (by rw [h])
    | .isFalse h => .isFalse (fun he => by injection he with h1; exact h h1)
  | .oneOrMore cs, .oneOrMore cs' =>
    match decEqPatternList cs cs' with
    | .isTrue h => .isTrue (by rw [h])
    | .isFalse h => .isFalse (fun he => by injection he with h1; exact h h1)
  | .either cs, .either cs' =>
    match decEqPatternList cs cs' with
    | .isTrue h => .isTrue (by rw [h])
    | .isFalse h => .isFalse (fun he => by injection he with h1; exact h h1)
  | .argument _ _, .command _ _ => .isFalse (fun h => Pattern.noConfusion h)
  | .argument _ _, .option _ _ _ _ => .isFalse (fun h => Pattern.noConfusion h)
  | .argument _ _, .required _ => .isFalse (fun h => Pattern.noConfusion h)
  | .argument _ _, .optional _ => .isFalse (fun h => Pattern.noConfusion h)
  | .argument _ _, .optionsShortcut _ => .isFalse (fun h => Pattern.noConfusion h)
  | .argument _ _, .oneOrMore _ => .isFalse (fun h => Pattern.noConfusion h)
  | .argument _ _, .either _ => .isFalse (fun h => Pattern.noConfusion h)
  | .command _ _, .argument _ _ => .isFalse (fun h => Pattern.noConfusion h)
  | .command _ _, .option _ _ _ _ => .isFalse (fun h => Pattern.noConfusion h)
  | .command _ _, .required _ => .isFalse (fun h => Pattern.noConfusion h)
  | .command _ _, .optional _ => .isFalse (fun h => Pattern.noConfusion h)
  | .command _ _, .optionsShortcut _ => .isFalse (fun h => Pattern.noConfusion h)
  | .command _ _, .oneOrMore _ => .isFalse (fun h => Pattern.noConfusion h)
  | .command _ _, .either _ => .isFalse (fun h => Pattern.noConfusion h)
  | .option _ _ _ _, .argument _ _ => .isFalse (fun h => Pattern.noConfusion h)
  | .option _ _ _ _, .command _ _ => .isFalse (fun h => Pattern.noConfusion h)
  | .option _ _ _ _, .required _ => .isFalse (fun h => Pattern.noConfusion h)
  | .option _ _ _ _, .optional _ => .isFalse (fun h => Pattern.noConfusion h)
  | .option _ _ _ _, .optionsShortcut _ => .isFalse (fun h => Pattern.noConfusion h)
  | .option _ _ _ _, .oneOrMore _ => .isFalse (fun h => Pattern.noConfusion h)
  | .option _ _ _ _, .either _ => .isFalse (fun h => Pattern.noConfusion h)
  | .required _, .argument _ _ => .isFalse (fun h => Pattern.noConfusion h)
  | .required _, .command _ _ => .isFalse (fun h => Pattern.noConfusion h)
  | .required _, .option _ _ _ _ => .isFalse (fun h => Pattern.noConfusion h)
  | .required _, .optional _ => .isFalse (fun h => Pattern.noConfusion h)
  | .required _, .optionsShortcut _ => .isFalse (fun h => Pattern.noConfusion h)
  | .required _, .oneOrMore _ => .isFalse (fun h => Pattern.noConfusion h)
  | .required _, .either _ => .isFalse (fun h => Pattern.noConfusion h)
  | .optional _, .argument _ _ => .isFalse (fun h => Pattern.noConfusion h)
  | .optional _, .command _ _ => .isFalse (fun h => Pattern.noConfusion h)
  | .optional _, .option _ _ _ _ => .isFalse (fun h => Pattern.noConfusion h)
  | .optional _, .required _ => .isFalse (fun h => Pattern.noConfusion h)
  | .optional _, .optionsShortcut _ => .isFalse (fun h => Pattern.noConfusion h)
  | .optional _, .oneOrMore _ => .isFalse (fun h => Pattern.noConfusion h)
  | .optional _, .either _ => .isFalse (fun h => Pattern.noConfusion h)
  | .optionsShortcut _, .argument _ _ => .isFalse (fun h => Pattern.noConfusion h)
  | .optionsShortcut _, .command _ _ => .isFalse (fun h => Pattern.noConfusion h)
  | .optionsShortcut _, .option _ _ _ _ => .isFalse (fun h => Pattern.noConfusion h)
  | .optionsShortcut _, .required _ => .isFalse (fun h => Pattern.noConfusion h)
  | .optionsShortcut _, .optional _ => .isFalse (fun h => Pattern.noConfusion h)
  | .optionsShortcut _, .oneOrMore _ => .isFalse (fun h => Pattern.noConfusion h)
  | .optionsShortcut _, .either _ => .isFalse (fun h => Pattern.noConfusion h)
  | .oneOrMore _, .argument _ _ => .isFalse (fun h => Pattern.noConfusion h)
  | .oneOrMore _, .command _ _ => .isFalse (fun h => Pattern.noConfusion h)
  | .oneOrMore _, .option _ _ _ _ => .isFalse (fun h => Pattern.noConfusion h)
  | .oneOrMore _, .required _ => .isFalse (fun h => Pattern.noConfusion h)
  | .oneOrMore _, .optional _ => .isFalse (fun h => Pattern.noConfusion h)
  | .oneOrMore _, .optionsShortcut _ => .isFalse (fun h => Pattern.noConfusion h)
  | .oneOrMore _, .either _ => .isFalse (fun h => Pattern.noConfusion h)
  | .either _, .argument _ _ => .isFalse (fun h => Pattern.noConfusion h)
  | .either _, .command _ _ => .isFalse (fun h => Pattern.noConfusion h)
  | .either _, .option _ _ _ _ => .isFalse (fun h => Pattern.noConfusion h)
  | .either _, .required _ => .isFalse (fun h => Pattern.noConfusion h)
  | .either _, .optional _ => .isFalse (fun h => Pattern.noConfusion h)
  | .either _, .optionsShortcut _ => .isFalse (fun h => Pattern.noConfusion h)
  | .either _, .oneOrMore _ => .isFalse (fun h => Pattern.noConfusion h)
termination_by structural a _ => a

def decEqPatternList : (a b : List Pattern) → Decidable (a = b)
  | [], [] => .isTrue rfl
  | [], _ :: _ => .isFalse (fun h => List.noConfusion h)
  | _ :: _, [] => .isFalse (fun h => List.noConfusion h)
  | a :: as, b :: bs =>
    match decEqPattern a b with
    | .isTrue h1 =>
      match decEqPatternList as bs with
      | .isTrue h2 => .isTrue (by rw [h1, h2])
      | .isFalse h2 => .isFalse (fun he => by injection he with x y; exact h2 y)
    | .isFalse h1 => .isFalse (fun he => by injection he with x y; exact h1 x)
termination_by structural a _ => a

end

instance : DecidableEq Pattern := decEqPattern

mutual

/-- A computable size measure on patterns; it strictly dominates the tree
height and is weighted so that the `transform` worklist and the
`altsOfList` expansion both decrease under it. -/
def psize : Pattern → Nat
  | .argument _ _ => 1
  | .command _ _ => 1
  | .option _ _ _ _ => 1
  | .required cs => 1 + 2 * psizeL cs
  | .optional cs => 1 + 2 * psizeL cs
  | .optionsShortcut cs => 1 + 2 * psizeL cs
  | .oneOrMore cs => 1 + 4 * psizeL cs
  | .either cs => 1 + 2 * psizeL cs
termination_by structural p => p

def psizeL : List Pattern → Nat
  | [] => 0
  | p :: ps => psize p + psizeL ps
termination_by structural l => l

end

namespace Pattern

/-- `dynamic_cast<Argument const*>` succeeds on `Argument` and its subclass
`Command`. -/
def isArgumentNode : Pattern → Bool
  | .argument _ _ => true
  | .command _ _ => true
  | _ => false

/-- `dynamic_cast<LeafPattern*>` succeeds on the three leaf classes. -/
def isLeaf : Pattern → Bool
  | .argument _ _ => true
  | .command _ _ => true
  | .option _ _ _ _ => true
  | _ => false

def isBranch (p : Pattern) : Bool := !p.isLeaf

/-- `Pattern::name()`.  For an `Option` the name is the long form when
present, else the short form (the `LeafPattern` constructor call in
`Option::Option`).  `BranchPattern::name()` throws and is never reached;
branches are given the dummy name `""`. -/
def pname : Pattern → String
  | .argument n _ => n
  | .command n _ => n
  | .option s l _ _ => if l = "" then s else l
  | _ => ""

/-- `LeafPattern::getValue()`; dummy `.empty` on branches (never called). -/
def pvalue : Pattern → Value
  | .argument _ v => v
  | .command _ v => v
  | .option _ _ _ v => v
  | _ => .empty

/-- `LeafPattern::setValue` on leaves; identity on branches. -/
def setValue : Pattern → Value → Pattern
  | .argument n _, v => .argument n v
  | .command n _, v => .command n v
  | .option s l a _, v => .option s l a v
  | p, _ => p

/-- `Pattern::hasValue()`: false on branches, `fValue` truthiness on leaves. -/
def hasValue : Pattern → Bool
  | .argument _ v => v.truthy
  | .command _ v => v.truthy
  | .option _ _ _ v => v.truthy
  | _ => false

def children : Pattern → List Pattern
  | .required cs => cs
  | .optional cs => cs
  | .optionsShortcut cs => cs
  | .oneOrMore cs => cs
  | .either cs => cs
  | _ => []

end Pattern

/-- `Argument::single_match`: scan `left` for the first node that casts to
`Argument` (this includes `Command` nodes) and produce a fresh
`Argument(name(), arg->getValue())` at its index. -/
def singleMatchArgument (n : String) : List Pattern → Option (Nat × Pattern)
  | [] => none
  | p :: rest =>
    if p.isArgumentNode then some (0, .argument n p.pvalue)
    else (singleMatchArgument n rest).map (fun r => (r.1 + 1, r.2))

/-- `Command::single_match`: scan for the first node that casts to
`Argument`; the loop `break`s at that node whether or not its value equals
the command name, so only the first argument node is ever considered. -/
def singleMatchCommand (n : String) : List Pattern → Option (Nat × Pattern)
  | [] => none
  | p :: rest =>
    if p.isArgumentNode then
      if p.pvalue = .str n then some (0, .command n (.bool true)) else none
    else (singleMatchCommand n rest).map (fun r => (r.1 + 1, r.2))

/-- `Option::single_match`: first leaf in `left` whose name equals this
option's name; the matched leaf itself is returned. -/
def singleMatchOption (n : String) : List Pattern → Option (Nat × Pattern)
  | [] => none
  | p :: rest =>
    if p.isLeaf ∧ p.pname = n then some (0, p)
    else (singleMatchOption n rest).map (fun r => (r.1 + 1, r.2))

/-- Dispatch of `LeafPattern::single_match` over the three leaf kinds. -/
def singleMatch : Pattern → List Pattern → Option (Nat × Pattern)
  | .argument n _, left => singleMatchArgument n left
  | .command n _, left => singleMatchCommand n left
  | p@(.option _ _ _ _), left => singleMatchOption p.pname left
  | _, _ => none

/-- Index of the first element of `collected` with the given name
(`std::find_if` over `collected` in `LeafPattern::match`). -/
def findSameName (n : String) : List Pattern → Option Nat
  | [] => none
  | p :: rest =>
    if p.pname = n then some 0 else (findSameName n rest).map (· + 1)

/-- In-place update of the element at index `i` (`(**same_name).setValue`). -/
def updateAt (l : List Pattern) (i : Nat) (v : Value) : List Pattern :=
  match l, i with
  | [], _ => []
  | p :: rest, 0 => p.setValue v :: rest
  | p :: rest, i + 1 => p :: updateAt rest i v

/-- `LeafPattern::match`.  On a hit the matched item is erased from `left`
and accumulated into `collected` according to the leaf's declared value
kind: `Long` values are counters, `StringList` values concatenate, any
other kind pushes the hit leaf as-is. -/
def matchLeaf (p : Pattern) (left collected : List Pattern) :
    Bool × List Pattern × List Pattern :=
  match singleMatch p left with
  | none => (false, left, collected)
  | some (i, m) =>
    let left' := left.eraseIdx i
    let sameName := findSameName p.pname collected
    if p.pvalue matches .long _ then
      match sameName with
      | none => (true, left', collected ++ [m.setValue (.long 1)])
      | some j =>
        match (collected.getD j (.required [])).pvalue with
        | .long n => (true, left', updateAt collected j (.long (1 + n)))
        | _ => (true, left', updateAt collected j (.long 1))
    else if p.pvalue matches .strList _ then
      let val : List String :=
        match m.pvalue with
        | .str s => [s]
        | .strList l => l
        | _ => []
      match sameName with
      | none => (true, left', collected ++ [m.setValue (.strList val)])
      | some j =>
        match (collected.getD j (.required [])).pvalue with
        | .strList l => (true, left', updateAt collected j (.strList (l ++ val)))
        | _ => (true, left', updateAt collected j (.strList val))
    else
      (true, left', collected ++ [m])

/-- One step of `std::min_element` with `<` on the leftover size: a later
outcome replaces the current minimum only when strictly smaller. -/
def minStep (acc : Option (List Pattern × List Pattern))
    (o : List Pattern × List Pattern) : Option (List Pattern × List Pattern) :=
  match acc with
  | none => some o
  | some m => if o.1.length < m.1.length then some o else some m

/-- `std::min_element` over the outcomes: keeps the first outcome achieving
the minimal leftover size. -/
def minLeftover (outs : List (List Pattern × List Pattern)) :
    Option (List Pattern × List Pattern) :=
  outs.foldl minStep none

/-- Loop body of `Required::match`, generic in the child matcher `m`: match
children in order against the working copy, aborting on the first
failure. -/
def matchAllG (m : Pattern → List Pattern → List Pattern →
    Bool × List Pattern × List Pattern) :
    List Pattern → List Pattern → List Pattern →
    Bool × List Pattern × List Pattern
  | [], left, collected => (true, left, collected)
  | p :: ps, left, collected =>
    let r := m p left collected
    if r.1 then matchAllG m ps r.2.1 r.2.2 else (false, r.2)

/-- Loop body of `Optional::match`, generic in the child matcher: match
each child, keeping whatever partial progress it made, ignoring the
result. -/
def matchOptG (m : Pattern → List Pattern → List Pattern →
    Bool × List Pattern × List Pattern) :
    List Pattern → List Pattern → List Pattern →
    Bool × List Pattern × List Pattern
  | [], left, collected => (true, left, collected)
  | p :: ps, left, collected =>
    let r := m p left collected
    matchOptG m ps r.2.1 r.2.2

/-- The `while (matched)` loop of `OneOrMore::match`, generic in the child
matcher.  `lprev` is the `l_` snapshot (absent during the first iteration);
the loop exits when a non-first iteration leaves `left` exactly as the
previous one (`l == l_`, pointer-vector equality, which coincides with
value equality because a match can only erase elements) or when the child
fails.  Each continuing iteration strictly shrinks `left`, so
`left.length + 2` steps of fuel (supplied by the caller) are never
exhausted. -/
def oomLoopG (m : List Pattern → List Pattern →
    Bool × List Pattern × List Pattern) :
    Nat → Option (List Pattern) → Nat → List Pattern → List Pattern →
    Nat × List Pattern × List Pattern
  | 0, _, times, left, collected => (times, left, collected)
  | fuel + 1, lprev, times, left, collected =>
    let r := m left collected
    let times' := if r.1 then times + 1 else times
    match lprev with
    | some lp =>
      if r.2.1 = lp then (times', r.2)
      else if r.1 then oomLoopG m fuel (some r.2.1) times' r.2.1 r.2.2
      else (times', r.2)
    | none =>
      if r.1 then oomLoopG m fuel (some r.2.1) times' r.2.1 r.2.2
      else (times', r.2)

/-- Loop body of `Either::match`, generic in the child matcher: run every
alternative on a copy of the incoming state, keeping the outcomes of the
ones that matched, in declaration order. -/
def eitherOutcomesG (m : Pattern → List Pattern → List Pattern →
    Bool × List Pattern × List Pattern) :
    List Pattern → List Pattern → List Pattern →
    List (List Pattern × List Pattern)
  | [], _, _ => []
  | p :: ps, left, collected =>
    let r := m p left collected
    (if r.1 then [r.2] else []) ++ eitherOutcomesG m ps left collected

/-- `Pattern::match(left, collected)` for every node kind, as a pure state
transformer: the returned `Bool` is the C++ return value and the returned
pair is the final `(left, collected)` (unchanged when the C++ code leaves
the by-reference arguments untouched).  The fuel bounds the pattern-tree
descent depth only; `matchPatternF_stable` shows any fuel at least
`psize p` gives the same result. -/
def matchPatternF : Nat → Pattern → List Pattern → List Pattern →
    Bool × List Pattern × List Pattern
  | 0, _, left, collected => (false, left, collected)
  | fuel + 1, p, left, collected =>
    match p with
    | .argument _ _ => matchLeaf p left collected
    | .command _ _ => matchLeaf p left collected
    | .option _ _ _ _ => matchLeaf p left collected
    | .required cs =>
      -- Required::match works on copies and commits only on success.
      let r := matchAllG (matchPatternF fuel) cs left collected
      if r.1 then r else (false, left, collected)
    | .optional cs => matchOptG (matchPatternF fuel) cs left collected
    | .optionsShortcut cs => matchOptG (matchPatternF fuel) cs left collected
    | .oneOrMore cs =>
      -- OneOrMore::match asserts a single child; fChildren[0] is the head.
      -- (An empty child list would be undefined behaviour in C++; it is
      -- modelled as a failed match.)
      (match cs with
       | [] => (false, left, collected)
       | ch :: _ =>
         let r := oomLoopG (matchPatternF fuel ch) (left.length + 2)
           none 0 left collected
         if r.1 = 0 then (false, left, collected) else (true, r.2))
    | .either cs =>
      -- Either::match collects the outcomes of all matching alternatives
      -- and commits the first one of minimal leftover size.
      let outs := eitherOutcomesG (matchPatternF fuel) cs left collected
      (match minLeftover outs with
       | none => (false, left, collected)
       | some o => (true, o))

/-- Entry point for `Pattern::match`: `psize p` strictly dominates the
tree height, so it is sufficient fuel (`matchPatternF_stable`). -/
def matchPattern (p : Pattern) (left collected : List Pattern) :
    Bool × List Pattern × List Pattern :=
  matchPatternF (psize p) p left collected

/-! ## String utilities (docopt_util.h)

C++ `std::string` positions are byte indices; the help texts the library
manipulates are treated as ASCII (one byte per character), so positions
are modelled as character indices over `String.data`. -/
/-- `starts_with` (docopt_util.h). -/
def strStartsWith (s pre : String) : Bool := pre.data.isPrefixOf s.data

/-- The `anySpace` character set of `split` (docopt_util.h):
`" \t\r\n\v\f"`. -/
def isAnySpace (ch : Char) : Bool :=
  ch = ' ' ∨ ch = '\t' ∨ ch = '\r' ∨ ch = '\n' ∨
    ch = Char.ofNat 11 ∨ ch = Char.ofNat 12

def splitWSList : List Char → List Char → List String
  | [], acc => if acc.isEmpty then [] else [String.mk acc]
  | ch :: rest, acc =>
    if isAnySpace ch then
      (if acc.isEmpty then [] else [String.mk acc]) ++ splitWSList rest []
    else splitWSList rest (acc ++ [ch])

/-- `split(str)` (docopt_util.h): split on runs of `anySpace`. -/
def splitWS (s : String) : List String := splitWSList s.data []

/-- `split(str, pos)`: splitting starts at position `pos`. -/
def splitWSFrom (s : String) (pos : Nat) : List String :=
  splitWSList (s.data.drop pos) []

/-- The trim character set (`" \t\n"` in `trim`, docopt_util.h). -/
def isTrimSpace (ch : Char) : Bool := ch = ' ' ∨ ch = '\t' ∨ ch = '\n'

/-- `trim` (docopt_util.h): strip the characters `" \t\n"` from both
ends. -/
def trim (s : String) : String :=
  String.mk (((s.data.reverse.dropWhile isTrimSpace).reverse).dropWhile
    isTrimSpace)

/-- `join(iter, end, delim)` (docopt_util.h). -/
def strJoin : List String → String → String
  | [], _ => ""
  | [x], _ => x
  | x :: rest, delim => x ++ delim ++ strJoin rest delim

/-- Index of the first occurrence of `pat` in `l` (`std::string::find`). -/
def findSubstr : List Char → List Char → Option Nat
  | [], pat => if pat.isEmpty then some 0 else none
  | ch :: rest, pat =>
    if pat.isPrefixOf (ch :: rest) then some 0
    else (findSubstr rest pat).map (· + 1)

/-- `partition(str, point)` (docopt_util.h): split at the first occurrence
of `point`; when absent, everything stays in the first component. -/
def partitionStr (s point : String) : String × String × String :=
  match findSubstr s.data point.data with
  | none => (s, "", "")
  | some i =>
    (String.mk (s.data.take i), point,
     String.mk (s.data.drop (i + point.data.length)))

/-! ## Normalization: `transform` and `fix_repeating_arguments` -/
/-- The `std::find_if` in `transform` that locates the first branch node of
a group, split into the part before it, the branch, and the part after. -/
def splitAtBranch : List Pattern → Option (List Pattern × Pattern × List Pattern)
  | [] => none
  | p :: ps =>
    if p.isBranch then some ([], p, ps)
    else (splitAtBranch ps).map (fun r => (p :: r.1, r.2.1, r.2.2))

/-- The worklist loop of `transform` (docopt.cpp): pop the first group;
if it has no branch node move it to the result, otherwise remove its first
branch node and push the expanded group(s) at the back of the queue:
one group per alternative for `Either`, the doubled child list for
`OneOrMore`, and the plain child list for every other branch.  Each
iteration strictly decreases `Σ 3 ^ psizeL group`, so that quantity bounds
the iteration count (`transformAux_stable`). -/
def transformAux : Nat → List (List Pattern) → List (List Pattern)
  | 0, _ => []
  | fuel + 1, groups =>
    match groups with
    | [] => []
    | g :: rest =>
      match splitAtBranch g with
      | none => g :: transformAux fuel rest
      | some (pre, b, suf) =>
        match b with
        | .either cs =>
          transformAux fuel (rest ++ cs.map (fun c => c :: (pre ++ suf)))
        | .oneOrMore cs =>
          transformAux fuel (rest ++ [cs ++ cs ++ pre ++ suf])
        | _ =>
          transformAux fuel (rest ++ [b.children ++ pre ++ suf])

/-- `transform(pattern)` (docopt.cpp): enumerate the flat alternatives. -/
def transform (pattern : List Pattern) : List (List Pattern) :=
  transformAux (3 ^ psizeL pattern + 1) [pattern]

/-- The promotion `fix_repeating_arguments` applies to a duplicated leaf:
`ensureInt` (`Int(0)`) for `Command` and zero-argcount `Option`;
`ensureList` for `Argument` and positive-argcount `Option`, which keeps an
existing `StringList`, tokenizes a `Str` on whitespace, and otherwise
installs the empty list. -/
def promoteLeaf : Pattern → Pattern
  | .command n _ => .command n (.long 0)
  | .argument n v =>
    (match v with
     | .strList _ => .argument n v
     | .str s => .argument n (.strList (splitWS s))
     | _ => .argument n (.strList []))
  | .option s l ac v =>
    if ac ≠ 0 then
      (match v with
       | .strList _ => .option s l ac v
       | .str st => .option s l ac (.strList (splitWS st))
       | _ => .option s l ac (.strList []))
    else .option s l ac (.long 0)
  | p => p

mutual

/-- Rewrite every leaf of a tree with `f` (the value model of mutating a
leaf through the pointers that `fix_identities` unified: all structurally
equal occurrences change together). -/
def mapLeaves (f : Pattern → Pattern) : Pattern → Pattern
  | .argument n v => f (.argument n v)
  | .command n v => f (.command n v)
  | .option s l a v => f (.option s l a v)
  | .required cs => .required (mapLeavesL f cs)
  | .optional cs => .optional (mapLeavesL f cs)
  | .optionsShortcut cs => .optionsShortcut (mapLeavesL f cs)
  | .oneOrMore cs => .oneOrMore (mapLeavesL f cs)
  | .either cs => .either (mapLeavesL f cs)
termination_by structural p => p

def mapLeavesL (f : Pattern → Pattern) : List Pattern → List Pattern
  | [] => []
  | p :: ps => mapLeaves f p :: mapLeavesL f ps
termination_by structural l => l

end

/-- A leaf counts as repeated when some flat alternative contains it (up to
structural equality, the model of the shared-pointer multiset) at least
twice. -/
def isRepeatedIn (groups : List (List Pattern)) (e : Pattern) : Bool :=
  groups.any (fun g => 2 ≤ g.count e)

/-- `BranchPattern::fix_repeating_arguments`: promote, in the whole tree,
every leaf that occurs at least twice in some flat alternative of the
expansion of the root's children. -/
def fixRepeatingArguments (t : Pattern) : Pattern :=
  let groups := transform t.children
  mapLeaves (fun e => if isRepeatedIn groups e then promoteLeaf e else e) t

/-- `BranchPattern::fix()`: `fix_identities` (pointer dedup, value-level
identity — see the header comment) followed by
`fix_repeating_arguments`. -/
def Pattern.fix (t : Pattern) : Pattern := fixRepeatingArguments t

mutual

/-- `Pattern::leaves()` / `collect_leaves`: the leaf nodes in order. -/
def leaves : Pattern → List Pattern
  | .argument n v => [.argument n v]
  | .command n v => [.command n v]
  | .option s l a v => [.option s l a v]
  | .required cs => leavesL cs
  | .optional cs => leavesL cs
  | .optionsShortcut cs => leavesL cs
  | .oneOrMore cs => leavesL cs
  | .either cs => leavesL cs
termination_by structural p => p

def leavesL : List Pattern → List Pattern
  | [] => []
  | p :: ps => leaves p ++ leavesL ps
termination_by structural l => l

end

/-! ## The result map and the tail of `docopt_parse` -/
/-- `std::map::operator[]` followed by assignment: insert or update. -/
def mapUpsert : List (String × Value) → String → Value → List (String × Value)
  | [], k, v => [(k, v)]
  | (k₂, v₂) :: rest, k, v =>
    if k₂ = k then (k₂, v) :: rest else (k₂, v₂) :: mapUpsert rest k v

/-- Lookup in the association-list model of `std::map`. -/
def mapLookup : List (String × Value) → String → Option Value
  | [], _ => none
  | (k₂, v₂) :: rest, k => if k₂ = k then some v₂ else mapLookup rest k

/-- The result-map construction of `docopt_parse`: `ret[p->name()] =
p->getValue()` for every leaf of the fixed pattern, then for every
collected leaf (collected entries overwrite). -/
def buildResultMap (fixed : Pattern) (collected : List Pattern) :
    List (String × Value) :=
  (leaves fixed ++ collected).foldl (fun m p => mapUpsert m p.pname p.pvalue) []

/-- The exceptions of docopt.h/docopt.cpp, plus the two undocumented
outcomes: `outOfRange` for the `std::out_of_range` that escapes
`Tokens::pop`, and `recursionLimit` for exhaustion of the explicit parser
fuel (unreachable for the fuel the entry points pass). -/
inductive DocoptError where
  | languageError (msg : String)
  | argumentError (msg : String)
  | optionError (msg : String)
  | exitHelp
  | exitVersion
  | outOfRange
  | recursionLimit

deriving DecidableEq

instance {ε α : Type} [DecidableEq ε] [DecidableEq α] :
    DecidableEq (Except ε α) := fun x y =>
  match x, y with
  | .ok a, .ok b =>
    if h : a = b then .isTrue (by rw [h])
    else .isFalse (fun he => by injection he with h2; exact h h2)
  | .error a, .error b =>
    if h : a = b then .isTrue (by rw [h])
    else .isFalse (fun he => by injection he with h2; exact h h2)
  | .ok _, .error _ => .isFalse (fun he => Except.noConfusion he)
  | .error _, .ok _ => .isFalse (fun he => Except.noConfusion he)

/-- The tail of `docopt_parse` (docopt.cpp, after `extras`): fix the
pattern, match it against the argv patterns with an empty `collected`,
and on `matched && argv_patterns.empty()` build the result map; a match
with leftover reports the unexpected-argument error (joining the original
argv tokens), a failed match the generic mismatch error. -/
def docoptParseMatch (pattern : Pattern) (argv : List String)
    (argvPatterns : List Pattern) : Except DocoptError (List (String × Value)) :=
  let fixed := Pattern.fix pattern
  let r := matchPattern fixed argvPatterns []
  if r.1 ∧ r.2.1 = [] then .ok (buildResultMap fixed r.2.2)
  else if r.1 then
    .error (.argumentError ("Unexpected argument: " ++ strJoin argv ", "))
  else .error (.argumentError "Arguments did not match expected patterns")

/-! ## Lookup structure of the result map -/
/-- The last element of `ps` whose name is `k` — the one whose value an
insert-or-assign fold over `ps` leaves in the map at key `k`. -/
def lastNamed : List Pattern → String → Option Pattern
  | [], _ => none
  | p :: ps, k =>
    match lastNamed ps k with
    | some q => some q
    | none => if p.pname = k then some p else none

/-! ## Token stream and argv parsing -/
/-- The `Tokens` cursor (docopt.cpp): the token vector, the index, and the
`fIsParsingArgv` flag. -/
structure Tokens where
  tokens : List String
  index : Nat
  isParsingArgv : Bool

deriving DecidableEq

namespace Tokens

/-- `operator bool()`: not past the end. -/
def hasMore (t : Tokens) : Bool := t.index < t.tokens.length

/-- `current()`: the empty string past the end. -/
def current (t : Tokens) : String := t.tokens.getD t.index ""

/-- The remaining token list (`fTokens.begin()+fIndex .. end`). -/
def remaining (t : Tokens) : List String := t.tokens.drop t.index

/-- `the_rest()`: remaining tokens joined by `" "`. -/
def theRest (t : Tokens) : String := strJoin t.remaining " "

/-- `pop()` is `std::move(fTokens.at(fIndex++))`; `std::vector::at` throws
`std::out_of_range` when the cursor is past the end, and nothing in
docopt.cpp catches that exception. -/
def pop (t : Tokens) : Except DocoptError (String × Tokens) :=
  if t.index < t.tokens.length then
    .ok (t.tokens.getD t.index "", { t with index := t.index + 1 })
  else .error .outOfRange

end Tokens

/-- The data of a catalog `Option` (docopt_private.h): short and long
names, argcount and current value. -/
structure DOpt where
  shortOpt : String
  longOpt : String
  argcount : Nat
  val : Value

deriving DecidableEq

/-- The `Option` constructor: when `argcount` is nonzero and the given
value is boolean false, the stored value becomes `Empty` (the comment in
docopt_private.h quotes the Python
`self.value = None if value is False and argcount else value`). -/
def mkOption (shortOpt longOpt : String) (argcount : Nat)
    (v : Value := .bool false) : DOpt :=
  { shortOpt, longOpt, argcount,
    val := if argcount ≠ 0 ∧ v = .bool false then .empty else v }

/-- `Option`'s `LeafPattern` name: the long form when present, else the
short form. -/
def DOpt.name (o : DOpt) : String :=
  if o.longOpt = "" then o.shortOpt else o.longOpt

def DOpt.toPattern (o : DOpt) : Pattern :=
  .option o.shortOpt o.longOpt o.argcount o.val

def DOpt.setVal (o : DOpt) (v : Value) : DOpt := { o with val := v }

/-- The candidate test of the prefix-matching loop in `parse_long`:
a catalog option with a nonempty long name that starts with the token. -/
def longPrefixCandidate (longOpt : String) (o : DOpt) : Bool :=
  o.longOpt ≠ "" ∧ strStartsWith o.longOpt longOpt

/-- `parse_long` (docopt.cpp).  Pops `--name[=val]`, resolves it against
the catalog — all exact long-name matches first; during argv parsing, when
there is no exact match, all options whose long name has the token as a
prefix — then fails on two or more candidates, synthesizes and records a
new option on zero, and otherwise uses the first candidate, checking its
argument count.  Returns the updated catalog, the produced patterns and
the advanced cursor. -/
def parseLong (tokens : Tokens) (options : List DOpt) :
    Except DocoptError (List DOpt × List Pattern × Tokens) := do
  let (tok, tokens) ← tokens.pop
  let (longOpt, equal, valStr) := partitionStr tok "="
  let val0 : Value := if equal = "" then .empty else .str valStr
  let exact := options.filter (fun o => o.longOpt == longOpt)
  let similar :=
    if tokens.isParsingArgv ∧ exact = [] then
      options.filter (longPrefixCandidate longOpt)
    else exact
  if 1 < similar.length then
    .error (.optionError ("'" ++ longOpt ++ "' is not a unique prefix: " ++
      strJoin (similar.map DOpt.longOpt) ", "))
  else
    match similar with
    | [] =>
      let argcount := if equal = "" then 0 else 1
      let newOpt := mkOption "" longOpt argcount
      let o := if tokens.isParsingArgv then
          newOpt.setVal (if argcount ≠ 0 then val0 else .bool true)
        else newOpt
      .ok (options ++ [newOpt], [o.toPattern], tokens)
    | o₀ :: _ =>
      if o₀.argcount = 0 then
        if val0.truthy then
          .error (.optionError (o₀.longOpt ++ " must not have an argument"))
        else
          let o := if tokens.isParsingArgv then
              o₀.setVal (if val0.truthy then val0 else .bool true)
            else o₀
          .ok (options, [o.toPattern], tokens)
      else
        if val0.truthy then
          let o := if tokens.isParsingArgv then
              o₀.setVal (if val0.truthy then val0 else .bool true)
            else o₀
          .ok (options, [o.toPattern], tokens)
        else
          let tok2 := tokens.current
          if tok2 = "" ∨ tok2 = "--" then
            .error (.optionError (o₀.longOpt ++ " requires an argument"))
          else do
            let (v, tokens) ← tokens.pop
            let o := if tokens.isParsingArgv then
                o₀.setVal (if (Value.str v).truthy then .str v else .bool true)
              else o₀
            .ok (options, [o.toPattern], tokens)

/-- The character walk of `parse_short` (docopt.cpp) over the cluster
after the leading `-`. -/
def parseShortChars : List Char → Tokens → List DOpt → List Pattern →
    Except DocoptError (List DOpt × List Pattern × Tokens)
  | [], tokens, options, acc => .ok (options, acc, tokens)
  | ch :: rest, tokens, options, acc =>
    let shortOpt := String.mk ['-', ch]
    let similar := options.filter (fun o => o.shortOpt == shortOpt)
    if 1 < similar.length then
      .error (.optionError (shortOpt ++ " is specified ambiguously " ++
        toString similar.length ++ " times"))
    else
      match similar with
      | [] =>
        let newOpt := mkOption shortOpt "" 0
        let o := if tokens.isParsingArgv then newOpt.setVal (.bool true)
          else newOpt
        parseShortChars rest tokens (options ++ [newOpt]) (acc ++ [o.toPattern])
      | o₀ :: _ =>
        if o₀.argcount ≠ 0 then
          -- after taking an argument `i` is at `token.end()`: the walk ends
          if rest = [] then
            -- consume the next token as the argument
            let tok2 := tokens.current
            if tok2 = "" ∨ tok2 = "--" then
              .error (.optionError (shortOpt ++ " requires an argument"))
            else do
              let (v, tokens) ← tokens.pop
              let o := if tokens.isParsingArgv then
                  o₀.setVal (if (Value.str v).truthy then .str v else .bool true)
                else o₀
              .ok (options, acc ++ [o.toPattern], tokens)
          else
            -- consume all the rest of the cluster as the argument
            let v := String.mk rest
            let o := if tokens.isParsingArgv then
                o₀.setVal (if (Value.str v).truthy then .str v else .bool true)
              else o₀
            .ok (options, acc ++ [o.toPattern], tokens)
        else
          let o := if tokens.isParsingArgv then o₀.setVal (.bool true) else o₀
          parseShortChars rest tokens options (acc ++ [o.toPattern])

/-- `parse_short`: pop the `-abc` cluster and walk its characters. -/
def parseShort (tokens : Tokens) (options : List DOpt) :
    Except DocoptError (List DOpt × List Pattern × Tokens) := do
  let (tok, tokens) ← tokens.pop
  parseShortChars (tok.data.drop 1) tokens options []

/-- The two `while (tokens)` drain loops in `parse_argv` that turn every
remaining token (including, in the `"--"` case, the `"--"` token itself)
into a positional `Argument("", value)`. -/
def drainToArguments (t : Tokens) : List Pattern :=
  t.remaining.map (fun s => .argument "" (.str s))

/-- The main loop of `parse_argv` (docopt.cpp).  Every iteration consumes
at least one token, so the entry fuel `remaining + 1` is never
exhausted. -/
def parseArgvLoop : Nat → Tokens → List DOpt → Bool → List Pattern →
    Except DocoptError (List DOpt × List Pattern)
  | 0, _, _, _, _ => .error .recursionLimit
  | fuel + 1, tokens, options, optionsFirst, acc =>
    if ¬ tokens.hasMore then .ok (options, acc)
    else
      let token := tokens.current
      if token = "--" then
        .ok (options, acc ++ drainToArguments tokens)
      else if strStartsWith token "--" then do
        let (options, parsed, tokens) ← parseLong tokens options
        parseArgvLoop fuel tokens options optionsFirst (acc ++ parsed)
      else if token.data.headD ' ' = '-' ∧ token ≠ "-" then do
        let (options, parsed, tokens) ← parseShort tokens options
        parseArgvLoop fuel tokens options optionsFirst (acc ++ parsed)
      else if optionsFirst then
        .ok (options, acc ++ drainToArguments tokens)
      else do
        let (v, tokens) ← tokens.pop
        parseArgvLoop fuel tokens options optionsFirst
          (acc ++ [.argument "" (.str v)])

/-- `parse_argv`: returns the flat argv pattern list together with the
(possibly grown) option catalog. -/
def parseArgv (tokens : Tokens) (options : List DOpt) (optionsFirst : Bool) :
    Except DocoptError (List DOpt × List Pattern) :=
  parseArgvLoop (tokens.remaining.length + 1) tokens options optionsFirst []

/-- `isOptionSet(options, opt1, opt2)` (docopt.cpp). -/
def isOptionSet (patterns : List Pattern) (opt1 : String)
    (opt2 : String := "") : Bool :=
  patterns.any (fun p =>
    (p.pname == opt1 || (opt2 != "" && p.pname == opt2)) && p.hasValue)

/-- `extras`: the help/version short-circuit, raised between argv parsing
and matching. -/
def extras (help version : Bool) (patterns : List Pattern) :
    Except DocoptError Unit :=
  if help ∧ isOptionSet patterns "-h" "--help" then .error .exitHelp
  else if version ∧ isOptionSet patterns "--version" then .error .exitVersion
  else .ok ()

/-! ## The help-text layer: `parse_section`, `formal_usage`,
`Tokens::from_pattern`, the usage grammar, `Option::parse`,
`parse_defaults`, `create_pattern_tree` and `docopt_parse` -/
/-- Split a character list into its `'\n'`-separated lines. -/
def splitLines : List Char → List (List Char)
  | [] => [[]]
  | '\n' :: rest => [] :: splitLines rest
  | c :: rest =>
    match splitLines rest with
    | [] => [[c]]
    | l :: ls => (c :: l) :: ls

/-- Re-join lines with `'\n'` (inverse of `splitLines`). -/
def joinLines : List (List Char) → List Char
  | [] => []
  | [l] => l
  | l :: ls => l ++ '\n' :: joinLines ls

/-- The first-line test of the `parse_section` regex
(`[^\n]*name[^\n]*`, `icase`): the line contains `name`
case-insensitively.  `nameL` is already lowercased. -/
def lineContainsCI (nameL line : List Char) : Bool :=
  (findSubstr (line.map Char.toLower) nameL).isSome

/-- The continuation-line test of the `parse_section` regex
(`\n[ \t].*?(?=\n|$)`): the line starts with a blank or tab, and — since
ECMAScript `.` matches neither `'\n'` nor `'\r'` while the lookahead
demands `'\n'` or the end — holds no carriage return. -/
def isContinuationLine (l : List Char) : Bool :=
  match l with
  | c :: _ => (c = ' ' ∨ c = '\t') && !(l.contains '\r')
  | [] => false

/-- The successive matches of the `parse_section` regex, as line groups: a
line containing the name opens a group that absorbs the following
continuation lines; absorbed lines cannot open a group of their own. -/
def gatherSections (nameL : List Char) : Nat → List (List Char) →
    List (List (List Char))
  | 0, _ => []
  | _, [] => []
  | fuel + 1, l :: ls =>
    if lineContainsCI nameL l then
      (l :: ls.takeWhile isContinuationLine) ::
        gatherSections nameL fuel (ls.dropWhile isContinuationLine)
    else gatherSections nameL fuel ls

/-- `parse_section(name, source)` (docopt.cpp): every matched group,
trimmed with `" \t\n"`. -/
def parseSection (name source : String) : List String :=
  let nameL := name.data.map Char.toLower
  let lines := splitLines source.data
  (gatherSections nameL (lines.length + 1) lines).map
    (fun sec => trim (String.mk (joinLines sec)))

/-- `formal_usage(section)` (docopt.cpp): skip past the first `':'`,
whitespace-split, and rebuild `"( alternative ) | ( alternative )"`,
starting a new alternative at every recurrence of the program name
`parts[0]`. -/
def formalUsage (sec : String) : String :=
  let i := ((findSubstr sec.data [':']).map (· + 1)).getD 0
  match splitWSFrom sec i with
  | [] => "( )"
  | p0 :: rest =>
    (rest.foldl (fun acc p =>
      if p = p0 then acc ++ " ) | (" else acc ++ " " ++ p) "(") ++ " )"

/-- The delimiter class `[\[\]\(\)\|]` of `Tokens::from_pattern`. -/
def isSepDelim (c : Char) : Bool :=
  c = '[' ∨ c = ']' ∨ c = '(' ∨ c = ')' ∨ c = '|'

/-- Offset of the first `'>'` reachable by ECMAScript `.` (which stops at
line terminators) — the lazy `.*?>` of the `\S*<.*?>` alternative. -/
def findGtInLine : List Char → Option Nat
  | [] => none
  | c :: rest =>
    if c = '>' then some 0
    else if c = '\n' ∨ c = '\r' then none
    else (findGtInLine rest).map (· + 1)

/-- Backtracking of the greedy `\S*` before `<`: try each candidate `'<'`
position (given rightmost first) until the lazy `.*?>` completes, and
return the matched length. -/
def tryAngleAt (rest : List Char) : List Nat → Option Nat
  | [] => none
  | i :: is =>
    match findGtInLine (rest.drop (i + 1)) with
    | some j => some (i + 1 + j + 1)
    | none => tryAngleAt rest is

/-- The `'<'` positions inside the leading nonspace run, rightmost
first. -/
def ltPositions (r : List Char) : List Nat :=
  ((List.range r.length).filter (fun i => r.getD i ' ' = '<')).reverse

/-- The `re_strings` scan of `Tokens::from_pattern` over one chunk
between delimiters: skip spaces, then take `\S*<.*?>` (greedy `\S*`,
lazy `.*?`) if it can complete, else the nonspace run `\S+`. -/
def stringTokensF : Nat → List Char → List (List Char)
  | 0, _ => []
  | fuel + 1, chunk =>
    match chunk.dropWhile isAnySpace with
    | [] => []
    | c :: rest0 =>
      let rest := c :: rest0
      let r := rest.takeWhile (fun x => ¬ isAnySpace x)
      match tryAngleAt rest (ltPositions r) with
      | some n => rest.take n :: stringTokensF fuel (rest.drop n)
      | none => r :: stringTokensF fuel (rest.drop r.length)

/-- The `re_separators` scan of `Tokens::from_pattern`: at each delimiter
(bracket, paren, pipe or an ellipsis `...`) emit the string tokens of the
accumulated chunk and then the delimiter itself.  Text after the last
delimiter is never visited by the loop and is dropped. -/
def sepScanF : Nat → List Char → List Char → List (List Char)
  | 0, _, _ => []
  | fuel + 1, cs, cur =>
    match cs with
    | [] => []
    | c :: rest =>
      if isSepDelim c then
        stringTokensF (cur.length + 1) cur ++ [c] :: sepScanF fuel rest []
      else if c = '.' then
        match rest with
        | '.' :: '.' :: rest2 =>
          stringTokensF (cur.length + 1) cur ++
            ['.', '.', '.'] :: sepScanF fuel rest2 []
        | _ => sepScanF fuel rest (cur ++ [c])
      else sepScanF fuel rest (cur ++ [c])

/-- `Tokens::from_pattern(source)`: the two-stage tokenizer, in usage-text
mode (`isParsingArgv = false`). -/
def Tokens.fromPattern (source : String) : Tokens :=
  ⟨(sepScanF (source.data.length + 1) source.data []).map String.mk,
    0, false⟩

/-- `is_argument_spec(token)` (docopt.cpp): `<...>`-bracketed, or all
uppercase letters (`::isupper`, so any digit or symbol disqualifies). -/
def isArgumentSpec (token : String) : Bool :=
  match token.data with
  | [] => false
  | c :: cs =>
    (c = '<' ∧ ((c :: cs).getLast?).getD ' ' = '>') ∨
      (c :: cs).all (fun x => 'A' ≤ x ∧ x ≤ 'Z')

/-- `maybe_collapse_to_required` (docopt.cpp). -/
def collapseToRequired : List Pattern → Pattern
  | [p] => p
  | seq => .required seq

/-- `maybe_collapse_to_either` (docopt.cpp). -/
def collapseToEither : List Pattern → Pattern
  | [p] => p
  | seq => .either seq

mutual

/-- `parse_atom` (docopt.cpp): bracketed group, `options` shortcut, long
or short option, argument or command.  A missing closing bracket is
reported only when the popped token differs from it; popping past the end
raises `std::out_of_range` instead. -/
def parseAtomF : Nat → Tokens → List DOpt →
    Except DocoptError (List DOpt × List Pattern × Tokens)
  | 0, _, _ => .error .recursionLimit
  | fuel + 1, tokens, options =>
    let token := tokens.current
    if token = "[" then do
      let (_, tokens) ← tokens.pop
      let (options, expr, tokens) ← parseExprF fuel tokens options
      let (trailing, tokens) ← tokens.pop
      if trailing ≠ "]" then .error (.languageError "Mismatched '['")
      else .ok (options, [.optional expr], tokens)
    else if token = "(" then do
      let (_, tokens) ← tokens.pop
      let (options, expr, tokens) ← parseExprF fuel tokens options
      let (trailing, tokens) ← tokens.pop
      if trailing ≠ ")" then .error (.languageError "Mismatched '('")
      else .ok (options, [.required expr], tokens)
    else if token = "options" then do
      let (_, tokens) ← tokens.pop
      .ok (options, [.optionsShortcut []], tokens)
    else if strStartsWith token "--" ∧ token ≠ "--" then
      parseLong tokens options
    else if strStartsWith token "-" ∧ token ≠ "-" ∧ token ≠ "--" then
      parseShort tokens options
    else if isArgumentSpec token then do
      let (v, tokens) ← tokens.pop
      .ok (options, [.argument v .empty], tokens)
    else do
      let (v, tokens) ← tokens.pop
      .ok (options, [.command v (.bool false)], tokens)
termination_by structural a _ _ => a

/-- `parse_seq` (docopt.cpp): atoms, each optionally wrapped in
`OneOrMore` by a following `...`, until the end or a closing token. -/
def parseSeqF : Nat → Tokens → List DOpt →
    Except DocoptError (List DOpt × List Pattern × Tokens)
  | 0, _, _ => .error .recursionLimit
  | fuel + 1, tokens, options =>
    if ¬ tokens.hasMore then .ok (options, [], tokens)
    else
      let token := tokens.current
      if token = "]" ∨ token = ")" ∨ token = "|" then .ok (options, [], tokens)
      else do
        let (options, atom, tokens) ← parseAtomF fuel tokens options
        if tokens.current = "..." then do
          let (_, tokens) ← tokens.pop
          let (options, rest, tokens) ← parseSeqF fuel tokens options
          .ok (options, .oneOrMore atom :: rest, tokens)
        else do
          let (options, rest, tokens) ← parseSeqF fuel tokens options
          .ok (options, atom ++ rest, tokens)
termination_by structural a _ _ => a

/-- The `while (tokens.current() == "|")` loop of `parse_expr`: the
remaining alternatives, each a collapsed sequence. -/
def parseExprAltsF : Nat → Tokens → List DOpt →
    Except DocoptError (List DOpt × List Pattern × Tokens)
  | 0, _, _ => .error .recursionLimit
  | fuel + 1, tokens, options =>
    if tokens.current = "|" then do
      let (_, tokens) ← tokens.pop
      let (options, seq, tokens) ← parseSeqF fuel tokens options
      let (options, rest, tokens) ← parseExprAltsF fuel tokens options
      .ok (options, collapseToRequired seq :: rest, tokens)
    else .ok (options, [], tokens)
termination_by structural a _ _ => a

/-- `parse_expr` (docopt.cpp): a sequence, or a collapsed `Either` of
`|`-separated sequences. -/
def parseExprF : Nat → Tokens → List DOpt →
    Except DocoptError (List DOpt × List Pattern × Tokens)
  | 0, _, _ => .error .recursionLimit
  | fuel + 1, tokens, options => do
    let (options, seq, tokens) ← parseSeqF fuel tokens options
    if tokens.current ≠ "|" then .ok (options, seq, tokens)
    else do
      let (options, alts, tokens) ← parseExprAltsF fuel tokens options
      .ok (options,
        [collapseToEither (collapseToRequired seq :: alts)], tokens)
termination_by structural a _ _ => a

end

/-- `parse_pattern(source, options)` (docopt.cpp): tokenize the formal
usage, parse one expression, and demand exhaustion; the result is wrapped
in a `Required`.  Each grammar call consumes fuel at most four times per
token, so the entry fuel is never exhausted. -/
def parsePattern (source : String) (options : List DOpt) :
    Except DocoptError (List DOpt × Pattern) := do
  let tokens := Tokens.fromPattern source
  let (options, result, tokens) ←
    parseExprF (4 * (tokens.tokens.length + 2)) tokens options
  if tokens.hasMore then
    .error (.languageError ("Unexpected ending: '" ++ tokens.theRest ++ "'"))
  else .ok (options, .required result)

/-- The field-delimiter class `[,= ]` of the `Option::parse` names
regex. -/
def optDelim (c : Char) : Bool := c = ',' ∨ c = '=' ∨ c = ' '

/-- The `(-{1,2})?(.*?)([,= ]|$)` scan of `Option::parse` over the names
part: each match sets the short name (one dash), the long name (two
dashes), or — for a bare nonempty field — the argument count; the scan
stops at the match that ends with `$`.  Where no match can start (a
newline precedes every delimiter) the engine skips past the newline. -/
def optionParseLoop : Nat → List Char → String → String → Nat →
    String × String × Nat
  | 0, _, so, lo, ac => (so, lo, ac)
  | fuel + 1, cs, so, lo, ac =>
    let dashes := if cs.take 2 = ['-', '-'] then 2
      else if cs.take 1 = ['-'] then 1 else 0
    let rest1 := cs.drop dashes
    let field := rest1.takeWhile (fun c => ¬ optDelim c ∧ c ≠ '\n')
    match rest1.drop field.length with
    | '\n' :: rest3 => optionParseLoop fuel rest3 so lo ac
    | [] =>
      if dashes = 1 then (String.mk ('-' :: field), lo, ac)
      else if dashes = 2 then (so, String.mk ('-' :: '-' :: field), ac)
      else if 0 < field.length then (so, lo, 1)
      else (so, lo, ac)
    | _ :: rest3 =>
      if dashes = 1 then
        optionParseLoop fuel rest3 (String.mk ('-' :: field)) lo ac
      else if dashes = 2 then
        optionParseLoop fuel rest3 so (String.mk ('-' :: '-' :: field)) ac
      else if 0 < field.length then optionParseLoop fuel rest3 so lo 1
      else optionParseLoop fuel rest3 so lo ac

/-- Index of the last `']'` — where the greedy `(.*)` of
`\[default: (.*)\]` backtracks to. -/
def lastRBracket (l : List Char) : Option Nat :=
  match l.reverse.findIdx? (fun c => c = ']') with
  | some k => some (l.length - 1 - k)
  | none => none

/-- `regex_search` for `\[default: (.*)\]` (`icase`): the first position
opening `[default: ` whose line still holds a closing `']'`; the capture
runs to the last `']'` of that line. -/
def findDefaultF : Nat → List Char → Option String
  | 0, _ => none
  | fuel + 1, cs =>
    match cs with
    | [] => none
    | _ :: rest =>
      if (cs.take 10).map Char.toLower = "[default: ".data then
        let line := (cs.drop 10).takeWhile (fun c => ¬ (c = '\n' ∨ c = '\r'))
        match lastRBracket line with
        | some j => some (String.mk (line.take j))
        | none => findDefaultF fuel rest
      else findDefaultF fuel rest

/-- `Option::parse(option_description)` (docopt_private.h): scan the part
before the first double blank for names and an argument placeholder; when
an argument was seen, search the remainder for a `[default: ...]` tag.
The `Option` constructor then turns a `false` default with arguments into
`Empty`. -/
def optionParse (descriptor : String) : DOpt :=
  let cs := descriptor.data
  let dd := findSubstr cs [' ', ' ']
  let namesPart := match dd with | some i => cs.take i | none => cs
  let tailPart := match dd with | some i => cs.drop i | none => []
  let (so, lo, ac) := optionParseLoop (namesPart.length + 1) namesPart "" "" 0
  let val := if ac ≠ 0 then
      match findDefaultF (tailPart.length + 1) tailPart with
      | some s => Value.str s
      | none => Value.bool false
    else Value.bool false
  mkOption so lo ac val

/-- Strip the leading `[ \t]*` of a descriptor line. -/
def lineAfterWS (l : List Char) : List Char :=
  l.dropWhile (fun c => c = ' ' ∨ c = '\t')

/-- A line opening an option descriptor: leading blanks, then a
hyphen. -/
def isHyphenLine (l : List Char) : Bool :=
  match lineAfterWS l with
  | '-' :: _ => true
  | _ => false

/-- The `parse_defaults` descriptor regex
`(?:^|\n)[ \t]*(-(.|\n)*?)(?=\n[ \t]*-|$)`: each hyphen line opens a
block running to the next hyphen line or the end.  `(.|\n)` cannot cross
a carriage return, so a block holding one never matches and the scan
moves on. -/
def descriptorBlocksF : Nat → List (List Char) → List (List Char)
  | 0, _ => []
  | _, [] => []
  | fuel + 1, l :: ls =>
    if isHyphenLine l then
      let block := joinLines
        (lineAfterWS l :: ls.takeWhile (fun x => ¬ isHyphenLine x))
      if block.contains '\r' then descriptorBlocksF fuel ls
      else block :: descriptorBlocksF fuel (ls.dropWhile (fun x => ¬ isHyphenLine x))
    else descriptorBlocksF fuel ls

/-- `parse_defaults(doc)` (docopt.cpp): in every `options:` section, drop
everything through the first `':'` and parse each hyphen-led descriptor
block. -/
def parseDefaults (doc : String) : List DOpt :=
  (parseSection "options:" doc).foldl (fun acc s =>
    let cs := s.data.drop (((findSubstr s.data [':']).map (· + 1)).getD 0)
    let lines := splitLines cs
    acc ++ ((descriptorBlocksF (lines.length + 1) lines).filter
      (fun b => strStartsWith (String.mk b) "-")).map
      (fun b => optionParse (String.mk b))) []

mutual

/-- `flat_filter<Option>(pattern)`: the option leaves in tree order. -/
def collectOptions : Pattern → List DOpt
  | .option s l a v => [⟨s, l, a, v⟩]
  | .argument _ _ => []
  | .command _ _ => []
  | .required cs => collectOptionsL cs
  | .optional cs => collectOptionsL cs
  | .optionsShortcut cs => collectOptionsL cs
  | .oneOrMore cs => collectOptionsL cs
  | .either cs => collectOptionsL cs
termination_by structural p => p

def collectOptionsL : List Pattern → List DOpt
  | [] => []
  | p :: ps => collectOptions p ++ collectOptionsL ps
termination_by structural l => l

end

/-- First-occurrence deduplication — the `unordered_set` of
`create_pattern_tree`, read in insertion order (the C++ iteration order
is unspecified). -/
def dedupDOpt (l : List DOpt) : List DOpt :=
  l.foldl (fun acc o => if acc.contains o then acc else acc ++ [o]) []

/-- The children every `[options]` shortcut receives: the doc-declared
options minus those already in the pattern (set difference by value),
deduplicated. -/
def shortcutChildren (patternOpts docOpts : List DOpt) : List Pattern :=
  (dedupDOpt (docOpts.filter (fun o => ¬ patternOpts.contains o))).map
    DOpt.toPattern

mutual

/-- The `setChildren` loop of `create_pattern_tree`: give every
`OptionsShortcut` node the computed children (descent stops there, as
`flat` does). -/
def fillShortcuts (cs : List Pattern) : Pattern → Pattern
  | .optionsShortcut _ => .optionsShortcut cs
  | .required xs => .required (fillShortcutsL cs xs)
  | .optional xs => .optional (fillShortcutsL cs xs)
  | .oneOrMore xs => .oneOrMore (fillShortcutsL cs xs)
  | .either xs => .either (fillShortcutsL cs xs)
  | p => p
termination_by structural p => p

def fillShortcutsL (cs : List Pattern) : List Pattern → List Pattern
  | [] => []
  | p :: ps => fillShortcuts cs p :: fillShortcutsL cs ps
termination_by structural l => l

end

/-- `create_pattern_tree(doc)` (docopt.cpp): demand exactly one `usage:`
section, parse the defaults and the formal usage, and fill every
`[options]` shortcut with the doc options missing from the pattern. -/
def createPatternTree (doc : String) :
    Except DocoptError (Pattern × List DOpt) :=
  match parseSection "usage:" doc with
  | [] => .error (.languageError "'usage:' (case-insensitive) not found.")
  | [usage] => do
    let options := parseDefaults doc
    let (options, pattern) ← parsePattern (formalUsage usage) options
    let cs := shortcutChildren (collectOptions pattern) (parseDefaults doc)
    .ok (fillShortcuts cs pattern, options)
  | _ => .error (.languageError "More than one 'usage:' (case-insensitive).")

/-- `docopt_parse(doc, argv, help, version, options_first)` (docopt.cpp):
build the tree (option errors becoming language errors), parse argv
(option errors becoming argument errors), raise help/version, then match
and build the result map.  `std::out_of_range` is caught nowhere. -/
def docoptParse (doc : String) (argv : List String)
    (help version optionsFirst : Bool) :
    Except DocoptError (List (String × Value)) :=
  match createPatternTree doc with
  | .error (.optionError e) => .error (.languageError e)
  | .error e => .error e
  | .ok (pattern, options) =>
    match parseArgv ⟨argv, 0, true⟩ options optionsFirst with
    | .error (.optionError e) => .error (.argumentError e)
    | .error e => .error e
    | .ok (_, argvPatterns) =>
      match extras help version argvPatterns with
      | .error e => .error e
      | .ok _ => docoptParseMatch pattern argv argvPatterns

def promoteIfRep (groups : List (List Pattern)) (e : Pattern) : Pattern :=
  if isRepeatedIn groups e then promoteLeaf e else e

def groupsMeasure (groups : List (List Pattern)) : Nat :=
  (groups.map (fun g => 3 ^ psizeL g)).sum

/-! ## Verified properties -/

theorem psize_pos (p : Pattern) : 1 ≤ psize p := by
  cases p <;> simp [psize]

theorem psizeL_mem {q : Pattern} {cs : List Pattern} (h : q ∈ cs) :
    psize q ≤ psizeL cs := by
  induction cs with
  | nil => cases h
  | cons a as ih =>
    rcases List.mem_cons.mp h with rfl | h2
    · simp only [psizeL]; omega
    · have := ih h2
      simp only [psizeL]; omega

theorem psize_child_lt {q : Pattern} {p : Pattern} (hq : q ∈ p.children) :
    psize q < psize p := by
  cases p <;> simp only [Pattern.children] at hq <;>
    first
      | simp at hq
      | (have h1 := psizeL_mem hq; simp only [psize]; omega)

theorem matchAllG_congr {m₁ m₂ : Pattern → List Pattern → List Pattern →
    Bool × List Pattern × List Pattern} :
    ∀ (cs l c : List Pattern),
    (∀ q ∈ cs, ∀ l₂ c₂, m₁ q l₂ c₂ = m₂ q l₂ c₂) →
    matchAllG m₁ cs l c = matchAllG m₂ cs l c := by
  intro cs
  induction cs with
  | nil => intro l c h; rfl
  | cons p ps ih =>
    intro l c h
    simp only [matchAllG, h p (by simp)]
    split
    · exact ih _ _ (fun q hq => h q (by simp [hq]))
    · rfl

theorem matchOptG_congr {m₁ m₂ : Pattern → List Pattern → List Pattern →
    Bool × List Pattern × List Pattern} :
    ∀ (cs l c : List Pattern),
    (∀ q ∈ cs, ∀ l₂ c₂, m₁ q l₂ c₂ = m₂ q l₂ c₂) →
    matchOptG m₁ cs l c = matchOptG m₂ cs l c := by
  intro cs
  induction cs with
  | nil => intro l c h; rfl
  | cons p ps ih =>
    intro l c h
    simp only [matchOptG, h p (by simp)]
    exact ih _ _ (fun q hq => h q (by simp [hq]))

theorem oomLoopG_congr {m₁ m₂ : List Pattern → List Pattern →
    Bool × List Pattern × List Pattern}
    (h : ∀ l₂ c₂, m₁ l₂ c₂ = m₂ l₂ c₂) :
    ∀ (fuel : Nat) (lprev : Option (List Pattern)) (times : Nat)
      (l c : List Pattern),
    oomLoopG m₁ fuel lprev times l c = oomLoopG m₂ fuel lprev times l c := by
  intro fuel
  induction fuel with
  | zero => intro lprev times l c; rfl
  | succ fuel ih =>
    intro lprev times l c
    cases lprev with
    | some lp =>
      simp only [oomLoopG, h l c]
      split
      · rfl
      · split
        · exact ih _ _ _ _
        · rfl
    | none =>
      simp only [oomLoopG, h l c]
      split
      · exact ih _ _ _ _
      · rfl

theorem eitherOutcomesG_congr {m₁ m₂ : Pattern → List Pattern → List Pattern →
    Bool × List Pattern × List Pattern} :
    ∀ (cs l c : List Pattern),
    (∀ q ∈ cs, ∀ l₂ c₂, m₁ q l₂ c₂ = m₂ q l₂ c₂) →
    eitherOutcomesG m₁ cs l c = eitherOutcomesG m₂ cs l c := by
  intro cs
  induction cs with
  | nil => intro l c h; rfl
  | cons p ps ih =>
    intro l c h
    simp only [eitherOutcomesG, h p (by simp)]
    rw [ih _ _ (fun q hq => h q (by simp [hq]))]

/-- The matcher's fuel only needs to reach `psize p`: any two sufficient
fuels give the same result, so `matchPattern` computes the limit of the
fueled recursion and the fuel-exhaustion branch is unreachable. -/
theorem matchPatternF_stable : ∀ (n : Nat) (p : Pattern) (l c : List Pattern)
    (f₁ f₂ : Nat), psize p ≤ n → psize p ≤ f₁ → psize p ≤ f₂ →
    matchPatternF f₁ p l c = matchPatternF f₂ p l c := by
  intro n
  induction n with
  | zero => intro p l c f₁ f₂ hn; have := psize_pos p; omega
  | succ n ih =>
    intro p l c f₁ f₂ hn h₁ h₂
    have hp1 := psize_pos p
    obtain ⟨a, rfl⟩ : ∃ a, f₁ = a + 1 := ⟨f₁ - 1, by omega⟩
    obtain ⟨b, rfl⟩ : ∃ b, f₂ = b + 1 := ⟨f₂ - 1, by omega⟩
    have hchild : ∀ q ∈ p.children, ∀ l₂ c₂,
        matchPatternF a q l₂ c₂ = matchPatternF b q l₂ c₂ := by
      intro q hq l₂ c₂
      have hlt : psize q < psize p := psize_child_lt hq
      exact ih q l₂ c₂ a b (by omega) (by omega) (by omega)
    cases p with
    | argument n v => rfl
    | command n v => rfl
    | option s lo ac v => rfl
    | required cs =>
      simp only [matchPatternF]
      rw [matchAllG_congr cs l c (by simpa [Pattern.children] using hchild)]
    | optional cs =>
      simp only [matchPatternF]
      exact matchOptG_congr cs l c (by simpa [Pattern.children] using hchild)
    | optionsShortcut cs =>
      simp only [matchPatternF]
      exact matchOptG_congr cs l c (by simpa [Pattern.children] using hchild)
    | oneOrMore cs =>
      cases cs with
      | nil => rfl
      | cons ch t =>
        simp only [matchPatternF]
        rw [oomLoopG_congr
          (fun l₂ c₂ => hchild ch (by simp [Pattern.children]) l₂ c₂)]
    | either cs =>
      simp only [matchPatternF]
      rw [eitherOutcomesG_congr cs l c (by simpa [Pattern.children] using hchild)]

theorem matchPatternF_eq_matchPattern {fuel : Nat} {p : Pattern}
    (h : psize p ≤ fuel) (l c : List Pattern) :
    matchPatternF fuel p l c = matchPattern p l c :=
  matchPatternF_stable (psize p) p l c fuel (psize p) le_rfl h le_rfl

theorem matchOptG_fst (m : Pattern → List Pattern → List Pattern →
    Bool × List Pattern × List Pattern) :
    ∀ (cs l c : List Pattern), (matchOptG m cs l c).1 = true := by
  intro cs
  induction cs with
  | nil => intro l c; rfl
  | cons p ps ih =>
    intro l c
    simp only [matchOptG]
    exact ih _ _

theorem matchLeaf_spec (p : Pattern) (l c : List Pattern) :
    (matchLeaf p l c).1 = true ∨ matchLeaf p l c = (false, l, c) := by
  cases hm : singleMatch p l with
  | none => right; simp [matchLeaf, hm]
  | some im =>
    obtain ⟨i, m⟩ := im
    left
    simp only [matchLeaf, hm]
    (repeat' split) <;> rfl

theorem matchPatternF_false_unchanged (fuel : Nat) (p : Pattern)
    (left collected : List Pattern)
    (h : (matchPatternF fuel p left collected).1 = false) :
    (matchPatternF fuel p left collected).2 = (left, collected) := by
  cases fuel with
  | zero => rfl
  | succ fuel =>
    cases p with
    | argument n v =>
      rcases matchLeaf_spec (.argument n v) left collected with h1 | h1
      · simp only [matchPatternF] at h; rw [h1] at h; cases h
      · simp only [matchPatternF]; rw [h1]
    | command n v =>
      rcases matchLeaf_spec (.command n v) left collected with h1 | h1
      · simp only [matchPatternF] at h; rw [h1] at h; cases h
      · simp only [matchPatternF]; rw [h1]
    | option s lo ac v =>
      rcases matchLeaf_spec (.option s lo ac v) left collected with h1 | h1
      · simp only [matchPatternF] at h; rw [h1] at h; cases h
      · simp only [matchPatternF]; rw [h1]
    | required cs =>
      simp only [matchPatternF] at h ⊢
      split at h <;> simp_all
    | optional cs =>
      have h2 := matchOptG_fst (matchPatternF fuel) cs left collected
      simp only [matchPatternF] at h
      rw [h2] at h; cases h
    | optionsShortcut cs =>
      have h2 := matchOptG_fst (matchPatternF fuel) cs left collected
      simp only [matchPatternF] at h
      rw [h2] at h; cases h
    | oneOrMore cs =>
      cases cs with
      | nil => rfl
      | cons ch t =>
        simp only [matchPatternF] at h ⊢
        split at h <;> simp_all
    | either cs =>
      simp only [matchPatternF] at h ⊢
      split at h <;> simp_all

/-- **C3.**  For every pattern node of every kind (Command, Argument,
Option, Required, Optional, OptionsShortcut, OneOrMore, Either) and every
state pair `(left, collected)`, if the node's `match(left, collected)`
returns false then both `left` and `collected` are left unchanged:
failures are transactional. -/
theorem match_failure_leaves_state_unchanged (p : Pattern)
    (left collected : List Pattern)
    (h : (matchPattern p left collected).1 = false) :
    (matchPattern p left collected).2 = (left, collected) :=
  matchPatternF_false_unchanged (psize p) p left collected h

theorem match_failure_leaves_state_unchanged_witness :
    (matchPattern (.command "new" (.bool false))
      [.option "-a" "" 0 (.bool true)] [.argument "<x>" (.str "v")]).1 = false ∧
    (matchPattern (.command "new" (.bool false))
      [.option "-a" "" 0 (.bool true)] [.argument "<x>" (.str "v")]).2 =
      ([.option "-a" "" 0 (.bool true)], [.argument "<x>" (.str "v")]) :=
  ⟨by decide, match_failure_leaves_state_unchanged _ _ _ (by decide)⟩

/-- `std::min_element` over a `foldl`, with an already-chosen current
minimum `m`: the result is either `m` itself (no outcome strictly
improves on it) or the first outcome strictly below `m`, below everything
and strictly below everything before it. -/
theorem minStep_foldl_spec :
    ∀ (outs : List (List Pattern × List Pattern)) (m : List Pattern × List Pattern),
    ∃ r, outs.foldl minStep (some m) = some r ∧
      ((r = m ∧ ∀ o ∈ outs, m.1.length ≤ o.1.length) ∨
       (∃ pre post, outs = pre ++ r :: post ∧
         r.1.length < m.1.length ∧
         (∀ o ∈ outs, r.1.length ≤ o.1.length) ∧
         (∀ o ∈ pre, r.1.length < o.1.length))) := by
  intro outs
  induction outs with
  | nil => intro m; exact ⟨m, rfl, Or.inl ⟨rfl, by simp⟩⟩
  | cons o os ih =>
    intro m
    by_cases hlt : o.1.length < m.1.length
    · obtain ⟨r, hr, hcase⟩ := ih o
      refine ⟨r, ?_, Or.inr ?_⟩
      · simpa [List.foldl_cons, minStep, hlt] using hr
      · rcases hcase with ⟨rfl, hall⟩ | ⟨pre, post, rfl, hro, hall, hpre⟩
        · refine ⟨[], os, rfl, hlt, ?_, by simp⟩
          intro x hx
          rcases List.mem_cons.mp hx with rfl | hx2
          · exact le_rfl
          · exact hall x hx2
        · refine ⟨o :: pre, post, rfl, by omega, ?_, ?_⟩
          · intro x hx
            rcases List.mem_cons.mp hx with rfl | hx2
            · omega
            · exact hall x hx2
          · intro x hx
            rcases List.mem_cons.mp hx with rfl | hx2
            · omega
            · exact hpre x hx2
    · obtain ⟨r, hr, hcase⟩ := ih m
      refine ⟨r, ?_, ?_⟩
      · simpa [List.foldl_cons, minStep, hlt] using hr
      · rcases hcase with ⟨rfl, hall⟩ | ⟨pre, post, rfl, hro, hall, hpre⟩
        · refine Or.inl ⟨rfl, ?_⟩
          intro x hx
          rcases List.mem_cons.mp hx with rfl | hx2
          · omega
          · exact hall x hx2
        · refine Or.inr ⟨o :: pre, post, rfl, hro, ?_, ?_⟩
          · intro x hx
            rcases List.mem_cons.mp hx with rfl | hx2
            · omega
            · exact hall x hx2
          · intro x hx
            rcases List.mem_cons.mp hx with rfl | hx2
            · omega
            · exact hpre x hx2

/-- `minLeftover` returns the first outcome of minimal leftover size:
everything strictly before the chosen outcome has strictly larger
leftover. -/
theorem minLeftover_spec (outs : List (List Pattern × List Pattern))
    (hne : outs ≠ []) :
    ∃ pre r post, outs = pre ++ r :: post ∧ minLeftover outs = some r ∧
      (∀ o ∈ outs, r.1.length ≤ o.1.length) ∧
      (∀ o ∈ pre, r.1.length < o.1.length) := by
  cases outs with
  | nil => cases hne rfl
  | cons o os =>
    obtain ⟨r, hr, hcase⟩ := minStep_foldl_spec os o
    have hfold : minLeftover (o :: os) = some r := by
      simpa [minLeftover, List.foldl_cons, minStep] using hr
    rcases hcase with ⟨rfl, hall⟩ | ⟨pre, post, rfl, hro, hall, hpre⟩
    · refine ⟨[], r, os, rfl, hfold, ?_, by simp⟩
      intro x hx
      rcases List.mem_cons.mp hx with rfl | hx2
      · exact le_rfl
      · exact hall x hx2
    · refine ⟨o :: pre, r, post, rfl, hfold, ?_, ?_⟩
      · intro x hx
        rcases List.mem_cons.mp hx with rfl | hx2
        · omega
        · exact hall x hx2
      · intro x hx
        rcases List.mem_cons.mp hx with rfl | hx2
        · omega
        · exact hpre x hx2

theorem psize_either (cs : List Pattern) :
    psize (.either cs) = 2 * psizeL cs + 1 := by
  simp [psize]; omega

/-- **C4.**  For every Either node, `match` tries each alternative on an
independent copy of `(left, collected)` (that is what `eitherOutcomesG
matchPattern` computes); if at least one alternative matches it commits
the matched outcome whose resulting `left` has minimum size, choosing the
earliest-declared alternative when several tie for the minimum (everything
before the committed outcome is strictly larger), and returns true; if no
alternative matches it returns false with `(left, collected)` unchanged. -/
theorem either_match_min_leftover (cs l c : List Pattern) :
    (eitherOutcomesG matchPattern cs l c = [] →
      matchPattern (.either cs) l c = (false, l, c)) ∧
    (eitherOutcomesG matchPattern cs l c ≠ [] →
      ∃ pre r post, eitherOutcomesG matchPattern cs l c = pre ++ r :: post ∧
        matchPattern (.either cs) l c = (true, r) ∧
        (∀ o ∈ eitherOutcomesG matchPattern cs l c,
          r.1.length ≤ o.1.length) ∧
        (∀ o ∈ pre, r.1.length < o.1.length)) := by
  have hout : eitherOutcomesG (matchPatternF (2 * psizeL cs)) cs l c
      = eitherOutcomesG matchPattern cs l c :=
    eitherOutcomesG_congr cs l c (fun q hq l₂ c₂ =>
      matchPatternF_eq_matchPattern
        (le_trans (psizeL_mem hq) (by omega)) l₂ c₂)
  have hun : matchPattern (.either cs) l c =
      (match minLeftover (eitherOutcomesG matchPattern cs l c) with
       | none => (false, l, c)
       | some o => (true, o)) := by
    rw [matchPattern, psize_either]
    simp only [matchPatternF]
    rw [hout]
  constructor
  · intro h
    rw [hun, h]
    rfl
  · intro hne
    obtain ⟨pre, r, post, hsplit, hmin, hall, hpre⟩ :=
      minLeftover_spec (eitherOutcomesG matchPattern cs l c) hne
    exact ⟨pre, r, post, hsplit, by rw [hun, hmin], hall, hpre⟩

theorem either_match_min_leftover_witness :
    eitherOutcomesG matchPattern
      [.argument "<x>" .empty, .argument "<y>" .empty]
      [.argument "" (.str "z")] [] ≠ [] ∧
    (∃ pre r post,
      eitherOutcomesG matchPattern
        [.argument "<x>" .empty, .argument "<y>" .empty]
        [.argument "" (.str "z")] [] = pre ++ r :: post ∧
      matchPattern (.either [.argument "<x>" .empty, .argument "<y>" .empty])
        [.argument "" (.str "z")] [] = (true, r) ∧
      (∀ o ∈ eitherOutcomesG matchPattern
        [.argument "<x>" .empty, .argument "<y>" .empty]
        [.argument "" (.str "z")] [], r.1.length ≤ o.1.length) ∧
      (∀ o ∈ pre, r.1.length < o.1.length)) :=
  ⟨by decide,
   (either_match_min_leftover [.argument "<x>" .empty, .argument "<y>" .empty]
     [.argument "" (.str "z")] []).2 (by decide)⟩

/-- **C2.**  `docopt_parse` returns a result map exactly when the
normalized root pattern's match of the parsed argv patterns succeeds with
the leftover list empty; if the root matched but the leftover is non-empty
it throws `DocoptArgumentError` reporting an unexpected argument, and if
the root match failed it throws `DocoptArgumentError` with the generic
mismatch message — in particular a parse never succeeds while any argv
token is unconsumed. -/
theorem parse_ok_iff_matched_and_all_consumed (pattern : Pattern)
    (argv : List String) (argvPatterns : List Pattern) :
    ((∃ m, docoptParseMatch pattern argv argvPatterns = .ok m) ↔
      ((matchPattern (Pattern.fix pattern) argvPatterns []).1 = true ∧
       (matchPattern (Pattern.fix pattern) argvPatterns []).2.1 = [])) ∧
    ((matchPattern (Pattern.fix pattern) argvPatterns []).1 = true →
      (matchPattern (Pattern.fix pattern) argvPatterns []).2.1 ≠ [] →
      docoptParseMatch pattern argv argvPatterns =
        .error (.argumentError ("Unexpected argument: " ++ strJoin argv ", "))) ∧
    ((matchPattern (Pattern.fix pattern) argvPatterns []).1 = false →
      docoptParseMatch pattern argv argvPatterns =
        .error (.argumentError "Arguments did not match expected patterns")) := by
  unfold docoptParseMatch
  refine ⟨⟨?_, ?_⟩, ?_, ?_⟩
  · rintro ⟨m, hm⟩
    by_cases h1 : (matchPattern (Pattern.fix pattern) argvPatterns []).1 = true ∧
        (matchPattern (Pattern.fix pattern) argvPatterns []).2.1 = []
    · exact h1
    · exfalso
      rw [if_neg h1] at hm
      split at hm <;> cases hm
  · intro h1
    rw [if_pos h1]
    exact ⟨_, rfl⟩
  · intro h1 h2
    rw [if_neg (by simp [h2]), if_pos h1]
  · intro h1
    rw [if_neg (by simp [h1]), if_neg (by simp [h1])]

theorem parse_ok_iff_matched_and_all_consumed_witness :
    (matchPattern (Pattern.fix (.required [.command "go" (.bool false)]))
      [.argument "" (.str "go")] []).1 = true ∧
    (matchPattern (Pattern.fix (.required [.command "go" (.bool false)]))
      [.argument "" (.str "go"), .argument "" (.str "x")] []).2.1 ≠ [] ∧
    docoptParseMatch (.required [.command "go" (.bool false)]) ["go", "x"]
      [.argument "" (.str "go"), .argument "" (.str "x")] =
      .error (.argumentError "Unexpected argument: go, x") :=
  ⟨by decide, by decide,
   (parse_ok_iff_matched_and_all_consumed
     (.required [.command "go" (.bool false)]) ["go", "x"]
     [.argument "" (.str "go"), .argument "" (.str "x")]).2.1
     (by decide) (by decide)⟩

/-! ## Names collected by the matcher -/
theorem setValue_pname (p : Pattern) (v : Value) :
    (p.setValue v).pname = p.pname := by
  cases p <;> rfl

theorem singleMatchArgument_pname {n : String} :
    ∀ {l : List Pattern} {i : Nat} {m : Pattern},
    singleMatchArgument n l = some (i, m) → m.pname = n := by
  intro l
  induction l with
  | nil => intro i m h; cases h
  | cons p rest ih =>
    intro i m h
    simp only [singleMatchArgument] at h
    split at h
    · cases h; rfl
    · cases hr : singleMatchArgument n rest with
      | none => rw [hr] at h; cases h
      | some r =>
        rw [hr] at h
        cases h
        exact ih hr

theorem singleMatchCommand_pname {n : String} :
    ∀ {l : List Pattern} {i : Nat} {m : Pattern},
    singleMatchCommand n l = some (i, m) → m.pname = n := by
  intro l
  induction l with
  | nil => intro i m h; cases h
  | cons p rest ih =>
    intro i m h
    simp only [singleMatchCommand] at h
    split at h
    · split at h
      · cases h; rfl
      · cases h
    · cases hr : singleMatchCommand n rest with
      | none => rw [hr] at h; cases h
      | some r =>
        rw [hr] at h
        cases h
        exact ih hr

theorem singleMatchOption_pname {n : String} :
    ∀ {l : List Pattern} {i : Nat} {m : Pattern},
    singleMatchOption n l = some (i, m) → m.pname = n := by
  intro l
  induction l with
  | nil => intro i m h; cases h
  | cons p rest ih =>
    intro i m h
    simp only [singleMatchOption] at h
    split at h
    · next hc =>
      cases h
      exact (by simpa using hc : _ ∧ _).2
    · cases hr : singleMatchOption n rest with
      | none => rw [hr] at h; cases h
      | some r =>
        rw [hr] at h
        cases h
        exact ih hr

theorem singleMatch_pname {p : Pattern} {l : List Pattern} {i : Nat}
    {m : Pattern} (h : singleMatch p l = some (i, m)) : m.pname = p.pname := by
  cases p with
  | argument n v => exact singleMatchArgument_pname h
  | command n v => exact singleMatchCommand_pname h
  | option s lo ac v => exact singleMatchOption_pname h
  | required cs => cases h
  | optional cs => cases h
  | optionsShortcut cs => cases h
  | oneOrMore cs => cases h
  | either cs => cases h

theorem updateAt_pname_mem {v : Value} :
    ∀ {c : List Pattern} {j : Nat} {x : Pattern}, x ∈ updateAt c j v →
    x.pname ∈ c.map Pattern.pname := by
  intro c
  induction c with
  | nil => intro j x h; cases h
  | cons p rest ih =>
    intro j x h
    cases j with
    | zero =>
      rcases List.mem_cons.mp h with rfl | h2
      · simp [setValue_pname]
      · simp only [List.map_cons, List.mem_cons]
        exact Or.inr (List.mem_map_of_mem _ h2)
    | succ k =>
      rcases List.mem_cons.mp h with rfl | h2
      · simp
      · simp only [List.map_cons, List.mem_cons]
        exact Or.inr (ih h2)

theorem matchLeaf_names (p : Pattern) (l c : List Pattern) :
    ∀ x ∈ (matchLeaf p l c).2.2,
      x.pname = p.pname ∨ x.pname ∈ c.map Pattern.pname := by
  intro x hx
  rcases hm : singleMatch p l with _ | ⟨i, m⟩
  · simp only [matchLeaf, hm] at hx
    exact Or.inr (List.mem_map_of_mem _ hx)
  · have hmp : m.pname = p.pname := singleMatch_pname hm
    simp only [matchLeaf, hm] at hx
    revert hx
    (repeat' split) <;> intro hx <;>
      first
      | (rcases List.mem_append.mp hx with h2 | h2
         · exact Or.inr (List.mem_map_of_mem _ h2)
         · left
           simp only [List.mem_singleton] at h2
           subst h2
           simp [setValue_pname, hmp])
      | exact Or.inr (updateAt_pname_mem hx)

theorem leavesL_append (a b : List Pattern) :
    leavesL (a ++ b) = leavesL a ++ leavesL b := by
  induction a with
  | nil => rfl
  | cons p ps ih => simp [leavesL, ih]

/-- The central shape of the collected-names invariant: membership of a
name in the collected names, after one child step, reduces to the child's
guarantee. -/
theorem names_trans {names : List String} {c₂ c : List Pattern} {k : String}
    (hstep : ∀ y ∈ c₂, y.pname ∈ names ∨ y.pname ∈ c.map Pattern.pname)
    (h : k ∈ c₂.map Pattern.pname) :
    k ∈ names ∨ k ∈ c.map Pattern.pname := by
  obtain ⟨y, hy, hyx⟩ := List.mem_map.mp h
  rcases hstep y hy with h3 | h3
  · exact Or.inl (hyx ▸ h3)
  · exact Or.inr (hyx ▸ h3)

theorem matchAllG_names
    {m : Pattern → List Pattern → List Pattern → Bool × List Pattern × List Pattern}
    {names : List String} :
    ∀ (cs : List Pattern),
    (∀ q ∈ cs, ∀ (l c : List Pattern), ∀ x ∈ (m q l c).2.2,
      x.pname ∈ names ∨ x.pname ∈ c.map Pattern.pname) →
    ∀ (l c : List Pattern), ∀ x ∈ (matchAllG m cs l c).2.2,
      x.pname ∈ names ∨ x.pname ∈ c.map Pattern.pname := by
  intro cs
  induction cs with
  | nil => intro hq l c x hx; exact Or.inr (List.mem_map_of_mem _ hx)
  | cons p ps ih =>
    intro hq l c x hx
    simp only [matchAllG] at hx
    split at hx
    · rcases ih (fun q hqq => hq q (by simp [hqq])) _ _ x hx with h2 | h2
      · exact Or.inl h2
      · exact names_trans (hq p (by simp) l c) h2
    · exact hq p (by simp) l c x hx

theorem matchOptG_names
    {m : Pattern → List Pattern → List Pattern → Bool × List Pattern × List Pattern}
    {names : List String} :
    ∀ (cs : List Pattern),
    (∀ q ∈ cs, ∀ (l c : List Pattern), ∀ x ∈ (m q l c).2.2,
      x.pname ∈ names ∨ x.pname ∈ c.map Pattern.pname) →
    ∀ (l c : List Pattern), ∀ x ∈ (matchOptG m cs l c).2.2,
      x.pname ∈ names ∨ x.pname ∈ c.map Pattern.pname := by
  intro cs
  induction cs with
  | nil => intro hq l c x hx; exact Or.inr (List.mem_map_of_mem _ hx)
  | cons p ps ih =>
    intro hq l c x hx
    simp only [matchOptG] at hx
    rcases ih (fun q hqq => hq q (by simp [hqq])) _ _ x hx with h2 | h2
    · exact Or.inl h2
    · exact names_trans (hq p (by simp) l c) h2

theorem oomLoopG_names
    {m : List Pattern → List Pattern → Bool × List Pattern × List Pattern}
    {names : List String}
    (hm : ∀ (l c : List Pattern), ∀ x ∈ (m l c).2.2,
      x.pname ∈ names ∨ x.pname ∈ c.map Pattern.pname) :
    ∀ (fuel : Nat) (lprev : Option (List Pattern)) (times : Nat)
      (l c : List Pattern),
    ∀ x ∈ (oomLoopG m fuel lprev times l c).2.2,
      x.pname ∈ names ∨ x.pname ∈ c.map Pattern.pname := by
  intro fuel
  induction fuel with
  | zero => intro lprev times l c x hx; exact Or.inr (List.mem_map_of_mem _ hx)
  | succ fuel ih =>
    intro lprev times l c x hx
    cases lprev with
    | some lp =>
      simp only [oomLoopG] at hx
      split at hx
      · exact hm l c x hx
      · split at hx
        · rcases ih _ _ _ _ x hx with h2 | h2
          · exact Or.inl h2
          · exact names_trans (hm l c) h2
        · exact hm l c x hx
    | none =>
      simp only [oomLoopG] at hx
      split at hx
      · rcases ih _ _ _ _ x hx with h2 | h2
        · exact Or.inl h2
        · exact names_trans (hm l c) h2
      · exact hm l c x hx

theorem foldl_minStep_mem :
    ∀ (outs : List (List Pattern × List Pattern))
      (acc : Option (List Pattern × List Pattern)) (r : List Pattern × List Pattern),
    outs.foldl minStep acc = some r → acc = some r ∨ r ∈ outs := by
  intro outs
  induction outs with
  | nil => intro acc r h; exact Or.inl h
  | cons o os ih =>
    intro acc r h
    simp only [List.foldl_cons] at h
    rcases ih _ _ h with h2 | h2
    · unfold minStep at h2
      split at h2
      · cases h2; exact Or.inr (by simp)
      · split at h2 <;> cases h2
        · exact Or.inr (by simp)
        · exact Or.inl rfl
    · exact Or.inr (by simp [h2])

theorem minLeftover_mem {outs : List (List Pattern × List Pattern)}
    {r : List Pattern × List Pattern} (h : minLeftover outs = some r) :
    r ∈ outs := by
  rcases foldl_minStep_mem outs none r h with h2 | h2
  · cases h2
  · exact h2

theorem eitherOutcomesG_mem
    {m : Pattern → List Pattern → List Pattern → Bool × List Pattern × List Pattern} :
    ∀ {cs l c : List Pattern} {o : List Pattern × List Pattern},
    o ∈ eitherOutcomesG m cs l c → ∃ q ∈ cs, (m q l c).2 = o := by
  intro cs
  induction cs with
  | nil => intro l c o h; cases h
  | cons p ps ih =>
    intro l c o h
    simp only [eitherOutcomesG] at h
    rcases List.mem_append.mp h with h2 | h2
    · split at h2
      · simp only [List.mem_singleton] at h2
        exact ⟨p, by simp, h2.symm⟩
      · cases h2
    · obtain ⟨q, hq, he⟩ := ih h2
      exact ⟨q, by simp [hq], he⟩

theorem leaves_sub_leavesL {q : Pattern} {cs : List Pattern} (hq : q ∈ cs)
    {k : String} (h : k ∈ (leaves q).map Pattern.pname) :
    k ∈ (leavesL cs).map Pattern.pname := by
  induction cs with
  | nil => cases hq
  | cons p ps ih =>
    rcases List.mem_cons.mp hq with rfl | h2
    · simp only [leavesL, List.map_append, List.mem_append]
      exact Or.inl h
    · simp only [leavesL, List.map_append, List.mem_append]
      exact Or.inr (ih h2)

/-- Every leaf the matcher ever places into `collected` carries the name
of some leaf of the pattern being matched (or was already in `collected`):
the single-match constructions reuse the tree leaf's own name, and the
counter/list updates keep names. -/
theorem matchPatternF_collected_names :
    ∀ (fuel : Nat) (p : Pattern) (l c : List Pattern),
    ∀ x ∈ (matchPatternF fuel p l c).2.2,
      x.pname ∈ (leaves p).map Pattern.pname ∨ x.pname ∈ c.map Pattern.pname := by
  intro fuel
  induction fuel with
  | zero => intro p l c x hx; exact Or.inr (List.mem_map_of_mem _ hx)
  | succ fuel ih =>
    intro p l c x hx
    cases p with
    | argument n v =>
      rcases matchLeaf_names (.argument n v) l c x hx with h2 | h2
      · exact Or.inl (by simp [leaves, Pattern.pname] at h2 ⊢; simp [h2])
      · exact Or.inr h2
    | command n v =>
      rcases matchLeaf_names (.command n v) l c x hx with h2 | h2
      · exact Or.inl (by simp [leaves, Pattern.pname] at h2 ⊢; simp [h2])
      · exact Or.inr h2
    | option s lo ac v =>
      rcases matchLeaf_names (.option s lo ac v) l c x hx with h2 | h2
      · exact Or.inl (by simp [leaves]; exact h2)
      · exact Or.inr h2
    | required cs =>
      simp only [matchPatternF] at hx
      split at hx
      · exact matchAllG_names cs
          (fun q hq l₂ c₂ x₂ hx₂ => by
            rcases ih q l₂ c₂ x₂ hx₂ with h3 | h3
            · exact Or.inl (by
                simp only [leaves]
                exact leaves_sub_leavesL hq h3)
            · exact Or.inr h3) l c x hx
      · exact Or.inr (List.mem_map_of_mem _ hx)
    | optional cs =>
      simp only [matchPatternF] at hx
      exact matchOptG_names cs
        (fun q hq l₂ c₂ x₂ hx₂ => by
          rcases ih q l₂ c₂ x₂ hx₂ with h3 | h3
          · exact Or.inl (by
              simp only [leaves]
              exact leaves_sub_leavesL hq h3)
          · exact Or.inr h3) l c x hx
    | optionsShortcut cs =>
      simp only [matchPatternF] at hx
      exact matchOptG_names cs
        (fun q hq l₂ c₂ x₂ hx₂ => by
          rcases ih q l₂ c₂ x₂ hx₂ with h3 | h3
          · exact Or.inl (by
              simp only [leaves]
              exact leaves_sub_leavesL hq h3)
          · exact Or.inr h3) l c x hx
    | oneOrMore cs =>
      cases cs with
      | nil =>
        simp only [matchPatternF] at hx
        exact Or.inr (List.mem_map_of_mem _ hx)
      | cons ch t =>
        simp only [matchPatternF] at hx
        split at hx
        · exact Or.inr (List.mem_map_of_mem _ hx)
        · have := @oomLoopG_names (matchPatternF fuel ch)
            ((leaves (.oneOrMore (ch :: t))).map Pattern.pname)
            (fun l₂ c₂ x₂ hx₂ => by
              rcases ih ch l₂ c₂ x₂ hx₂ with h3 | h3
              · exact Or.inl (by
                  simp only [leaves]
                  exact leaves_sub_leavesL (by simp) h3)
              · exact Or.inr h3) (l.length + 2) none 0 l c x
          exact this hx
    | either cs =>
      simp only [matchPatternF] at hx
      split at hx
      · exact Or.inr (List.mem_map_of_mem _ hx)
      next o ho =>
        have hmem := minLeftover_mem ho
        obtain ⟨q, hq, he⟩ := eitherOutcomesG_mem hmem
        have hx₂ : x ∈ (matchPatternF fuel q l c).2.2 := by rw [he]; exact hx
        rcases ih q l c x hx₂ with h3 | h3
        · exact Or.inl (by
            simp only [leaves]
            exact leaves_sub_leavesL hq h3)
        · exact Or.inr h3

theorem mapLookup_upsert :
    ∀ (m : List (String × Value)) (a k : String) (v : Value),
    mapLookup (mapUpsert m a v) k = if a = k then some v else mapLookup m k := by
  intro m
  induction m with
  | nil =>
    intro a k v
    simp [mapUpsert, mapLookup]
  | cons kv rest ih =>
    intro a k v
    obtain ⟨k₂, v₂⟩ := kv
    simp only [mapUpsert]
    by_cases h1 : k₂ = a
    · subst h1
      rw [if_pos rfl]
      by_cases h2 : k₂ = k <;> simp [mapLookup, h2]
    · rw [if_neg h1]
      by_cases h2 : k₂ = k
      · subst h2
        have h3 : ¬ a = k₂ := fun hh => h1 hh.symm
        simp [mapLookup, h3]
      · simp [mapLookup, h1, h2, ih]

theorem foldl_upsert_lookup :
    ∀ (ps : List Pattern) (m : List (String × Value)) (k : String),
    mapLookup (ps.foldl (fun acc p => mapUpsert acc p.pname p.pvalue) m) k =
      (match lastNamed ps k with
       | some q => some q.pvalue
       | none => mapLookup m k) := by
  intro ps
  induction ps with
  | nil => intro m k; rfl
  | cons p ps ih =>
    intro m k
    simp only [List.foldl_cons, ih, lastNamed]
    cases lastNamed ps k with
    | some q => rfl
    | none =>
      simp only [mapLookup_upsert]
      by_cases h : p.pname = k <;> simp [h]

theorem lastNamed_append (a b : List Pattern) (k : String) :
    lastNamed (a ++ b) k =
      (match lastNamed b k with
       | some q => some q
       | none => lastNamed a k) := by
  induction a with
  | nil => cases h : lastNamed b k <;> simp [h, lastNamed]
  | cons p ps ih =>
    simp only [List.cons_append, lastNamed]
    cases hb : lastNamed b k <;> cases hp : lastNamed ps k <;>
      simp [hb, hp, ih]

theorem lastNamed_eq_none_iff (ps : List Pattern) (k : String) :
    lastNamed ps k = none ↔ k ∉ ps.map Pattern.pname := by
  induction ps with
  | nil => simp [lastNamed]
  | cons p ps ih =>
    simp only [lastNamed, List.map_cons, List.mem_cons]
    cases h : lastNamed ps k with
    | some q =>
      have h2 : k ∈ List.map Pattern.pname ps := by
        by_contra hk
        rw [ih.mpr hk] at h
        cases h
      simp [h2]
    | none =>
      have h2 := ih.mp h
      by_cases hp : p.pname = k
      · constructor
        · intro hh
          rw [if_pos hp] at hh
          cases hh
        · intro hh
          exact absurd (Or.inl hp.symm) hh
      · constructor
        · intro _
          rintro (hk | hk)
          · exact hp hk.symm
          · exact h2 hk
        · intro _
          rw [if_neg hp]

theorem lastNamed_pname {ps : List Pattern} {k : String} {q : Pattern}
    (h : lastNamed ps k = some q) : q.pname = k := by
  induction ps with
  | nil => cases h
  | cons p rest ih =>
    simp only [lastNamed] at h
    cases hr : lastNamed rest k with
    | some r =>
      rw [hr] at h
      cases h
      exact ih hr
    | none =>
      rw [hr] at h
      by_cases hp : p.pname = k
      · rw [if_pos hp] at h
        cases h
        exact hp
      · rw [if_neg hp] at h
        cases h

/-- The full lookup structure of the result map built by `docopt_parse`:
the collected leaf with name `k` wins (the last one, matching the
overwrite order of the fold), else the value of the last tree leaf named
`k`, else the key is absent. -/
theorem buildResultMap_lookup (fixed : Pattern) (collected : List Pattern)
    (k : String) :
    mapLookup (buildResultMap fixed collected) k =
      (match lastNamed collected k with
       | some q => some q.pvalue
       | none =>
         (match lastNamed (leaves fixed) k with
          | some q => some q.pvalue
          | none => none)) := by
  unfold buildResultMap
  rw [foldl_upsert_lookup]
  rw [lastNamed_append]
  cases lastNamed collected k <;> cases lastNamed (leaves fixed) k <;> rfl

theorem bindOk {ε α β : Type} (a : α) (f : α → Except ε β) :
    (Bind.bind (Except.ok a : Except ε α) f) = f a := rfl

theorem bindErr {ε α β : Type} (e : ε) (f : α → Except ε β) :
    (Bind.bind (Except.error e : Except ε α) f) = Except.error e := rfl

/-- One step of the `parse_short` character walk for a uniquely declared
no-argument short option: it is resolved and emitted with value true. -/
theorem parseShortChars_step_noarg {options : List DOpt} {o : DOpt} {ch : Char}
    (h1 : options.filter (fun x => x.shortOpt == String.mk ['-', ch]) = [o])
    (h2 : o.argcount = 0) (rest : List Char) (tokens : Tokens)
    (acc : List Pattern) :
    parseShortChars (ch :: rest) tokens options acc =
      parseShortChars rest tokens options
        (acc ++ [(if tokens.isParsingArgv then o.setVal (.bool true)
          else o).toPattern]) := by
  simp only [parseShortChars, h1]
  simp [h2]

/-- `parse_argv` on the clustered `["-ab"]` with uniquely declared
no-argument shorts `-a` and `-b`. -/
theorem parseArgv_cluster_ab (options : List DOpt) (oa ob : DOpt) (of : Bool)
    (ha : options.filter (fun x => x.shortOpt == "-a") = [oa])
    (ha0 : oa.argcount = 0)
    (hb : options.filter (fun x => x.shortOpt == "-b") = [ob])
    (hb0 : ob.argcount = 0) :
    parseArgv ⟨["-ab"], 0, true⟩ options of =
      .ok (options, [(oa.setVal (.bool true)).toPattern,
        (ob.setVal (.bool true)).toPattern]) := by
  have ha2 : options.filter (fun x => x.shortOpt == String.mk ['-', 'a']) = [oa] := ha
  have hb2 : options.filter (fun x => x.shortOpt == String.mk ['-', 'b']) = [ob] := hb
  show parseArgvLoop 2 ⟨["-ab"], 0, true⟩ options of [] = _
  simp only [parseArgvLoop]
  rw [if_neg (by decide)]
  rw [if_neg (by decide), if_neg (by decide), if_pos (by decide)]
  simp only [parseShort, Tokens.pop]
  rw [if_pos (by decide)]
  rw [show (["-ab"] : List String).getD 0 "" = "-ab" from by decide]
  rw [bindOk]
  rw [show List.drop 1 ("-ab".data) = ['a', 'b'] from by decide]
  rw [parseShortChars_step_noarg ha2 ha0, parseShortChars_step_noarg hb2 hb0]
  simp only [parseShortChars]
  rw [bindOk]
  simp [Tokens.hasMore]

/-- A `parse_argv` loop iteration on a short-option token, given the
evaluated result of `parse_short`. -/
theorem parseArgvLoop_step_short {tokens : Tokens} (fuel : Nat)
    (options : List DOpt) (of : Bool) (acc : List Pattern)
    (h1 : tokens.hasMore = true) (h2 : tokens.current ≠ "--")
    (h3 : strStartsWith tokens.current "--" = false)
    (h4 : tokens.current.data.headD ' ' = '-' ∧ tokens.current ≠ "-")
    {o : List DOpt} {p : List Pattern} {t : Tokens}
    (h5 : parseShort tokens options = .ok (o, p, t)) :
    parseArgvLoop (fuel + 1) tokens options of acc =
      parseArgvLoop fuel t o of (acc ++ p) := by
  simp only [parseArgvLoop]
  rw [if_neg (by simp [h1]), if_neg h2, if_neg (by simp [h3]), if_pos h4,
    h5, bindOk]

/-- `parse_argv` on the split `["-a", "-b"]` with the same catalog. -/
theorem parseArgv_split_ab (options : List DOpt) (oa ob : DOpt) (of : Bool)
    (ha : options.filter (fun x => x.shortOpt == "-a") = [oa])
    (ha0 : oa.argcount = 0)
    (hb : options.filter (fun x => x.shortOpt == "-b") = [ob])
    (hb0 : ob.argcount = 0) :
    parseArgv ⟨["-a", "-b"], 0, true⟩ options of =
      .ok (options, [(oa.setVal (.bool true)).toPattern,
        (ob.setVal (.bool true)).toPattern]) := by
  have ha2 : options.filter (fun x => x.shortOpt == String.mk ['-', 'a']) = [oa] := ha
  have hb2 : options.filter (fun x => x.shortOpt == String.mk ['-', 'b']) = [ob] := hb
  have hsa : parseShort ⟨["-a", "-b"], 0, true⟩ options =
      .ok (options, [(oa.setVal (.bool true)).toPattern],
        ⟨["-a", "-b"], 1, true⟩) := by
    simp only [parseShort, Tokens.pop]
    rw [if_pos (by decide)]
    rw [show (["-a", "-b"] : List String).getD 0 "" = "-a" from by decide]
    rw [bindOk]
    rw [show List.drop 1 ("-a".data) = ['a'] from by decide]
    rw [parseShortChars_step_noarg ha2 ha0]
    simp only [parseShortChars]
    simp
  have hsb : parseShort ⟨["-a", "-b"], 1, true⟩ options =
      .ok (options, [(ob.setVal (.bool true)).toPattern],
        ⟨["-a", "-b"], 2, true⟩) := by
    simp only [parseShort, Tokens.pop]
    rw [if_pos (by decide)]
    rw [show (["-a", "-b"] : List String).getD 1 "" = "-b" from by decide]
    rw [bindOk]
    rw [show List.drop 1 ("-b".data) = ['b'] from by decide]
    rw [parseShortChars_step_noarg hb2 hb0]
    simp only [parseShortChars]
    simp
  show parseArgvLoop 3 ⟨["-a", "-b"], 0, true⟩ options of [] = _
  rw [parseArgvLoop_step_short 2 options of [] (by decide) (by decide)
    (by decide) (by decide) hsa]
  rw [parseArgvLoop_step_short 1 options of _ (by decide) (by decide)
    (by decide) (by decide) hsb]
  simp [parseArgvLoop, Tokens.hasMore]

/-- **C10.**  When `parse_argv` encounters the token `--` at the top of
its loop (not consumed as an option's argument), it emits the `--` token
itself as an `Argument` leaf with empty name and string value `"--"`,
followed by every remaining argv token as an `Argument` leaf regardless of
leading hyphens; consequently a parse of such an argv can only succeed if
the usage pattern consumes that `--` positional: on success the match's
leftover is empty, so every emitted pattern was consumed. -/
theorem ddash_emits_positionals (pre rest : List String) (options : List DOpt)
    (optionsFirst : Bool) (fuel : Nat) (acc : List Pattern) :
    parseArgvLoop (fuel + 1) ⟨pre ++ "--" :: rest, pre.length, true⟩ options
        optionsFirst acc =
      .ok (options, acc ++ .argument "" (.str "--") ::
        rest.map (fun s => .argument "" (.str s))) ∧
    (∀ (t : Pattern) (argv : List String) (m : List (String × Value)),
      docoptParseMatch t argv
        (.argument "" (.str "--") :: rest.map (fun s => .argument "" (.str s))) =
        .ok m →
      (matchPattern (Pattern.fix t)
        (.argument "" (.str "--") :: rest.map (fun s => .argument "" (.str s)))
        []).2.1 = []) := by
  constructor
  · have hdrop : (pre ++ "--" :: rest).drop pre.length = "--" :: rest :=
      List.drop_left pre ("--" :: rest)
    have hcur : Tokens.current ⟨pre ++ "--" :: rest, pre.length, true⟩ = "--" := by
      simp only [Tokens.current, List.getD, List.get?_eq_getElem?]
      have h3 := List.getElem?_drop (pre ++ "--" :: rest) pre.length 0
      rw [hdrop] at h3
      simp only [Nat.add_zero] at h3
      rw [← h3]
      simp
    have hmore : Tokens.hasMore ⟨pre ++ "--" :: rest, pre.length, true⟩ = true := by
      simp only [Tokens.hasMore, List.length_append, List.length_cons]
      simp only [decide_eq_true_eq]
      omega
    simp only [parseArgvLoop, hmore, hcur]
    simp only [drainToArguments, Tokens.remaining, hdrop]
    simp
  · intro t argv m hok
    unfold docoptParseMatch at hok
    by_cases hc : (matchPattern (Pattern.fix t)
        (.argument "" (.str "--") :: rest.map (fun s => .argument "" (.str s)))
        []).1 = true ∧
      (matchPattern (Pattern.fix t)
        (.argument "" (.str "--") :: rest.map (fun s => .argument "" (.str s)))
        []).2.1 = []
    · exact hc.2
    · exfalso
      rw [if_neg hc] at hok
      split at hok <;> cases hok

/-- **C5.**  Resolving a long-option token `--name` (here without an
attached `=value`, as the `partitionStr` hypothesis states) against the
catalog: an exact long-name match is taken first (a); only during argv
parsing and only when no exact match exists, every catalog option whose
long name starts with the token is a candidate: a unique candidate is
taken as the match (b), two or more candidates fail with the
not-a-unique-prefix error listing every candidate long option (c), and no
candidate synthesizes a new option and adds it to the catalog (d).
Outside argv parsing no prefix matching happens: with no exact match a
new option is synthesized even if prefix candidates exist (e). -/
theorem long_option_resolution (lo : String) (rest : List String)
    (mode : Bool) (options : List DOpt)
    (hpart : partitionStr lo "=" = (lo, "", "")) :
    (∀ o, options.filter (fun x => x.longOpt == lo) = [o] → o.argcount = 0 →
      parseLong ⟨lo :: rest, 0, mode⟩ options =
        .ok (options, [(if mode then o.setVal (.bool true) else o).toPattern],
          ⟨lo :: rest, 1, mode⟩)) ∧
    (∀ o, mode = true → options.filter (fun x => x.longOpt == lo) = [] →
      options.filter (longPrefixCandidate lo) = [o] →
      o.argcount = 0 →
      parseLong ⟨lo :: rest, 0, mode⟩ options =
        .ok (options, [(o.setVal (.bool true)).toPattern],
          ⟨lo :: rest, 1, mode⟩)) ∧
    (mode = true → options.filter (fun x => x.longOpt == lo) = [] →
      2 ≤ (options.filter (longPrefixCandidate lo)).length →
      parseLong ⟨lo :: rest, 0, mode⟩ options =
        .error (.optionError ("'" ++ lo ++ "' is not a unique prefix: " ++
          strJoin ((options.filter (longPrefixCandidate lo)).map
            DOpt.longOpt) ", "))) ∧
    (mode = true → options.filter (fun x => x.longOpt == lo) = [] →
      options.filter (longPrefixCandidate lo) = [] →
      parseLong ⟨lo :: rest, 0, mode⟩ options =
        .ok (options ++ [mkOption "" lo 0],
          [((mkOption "" lo 0).setVal (.bool true)).toPattern],
          ⟨lo :: rest, 1, mode⟩)) ∧
    (mode = false → options.filter (fun x => x.longOpt == lo) = [] →
      parseLong ⟨lo :: rest, 0, mode⟩ options =
        .ok (options ++ [mkOption "" lo 0], [(mkOption "" lo 0).toPattern],
          ⟨lo :: rest, 1, mode⟩)) := by
  refine ⟨?_, ?_, ?_, ?_, ?_⟩
  · intro o hex hac
    unfold parseLong
    simp only [Tokens.pop]
    rw [if_pos (by simp)]
    simp only [bind, Except.bind]
    simp only [List.getD, List.get?_eq_getElem?]
    rw [show ((lo :: rest)[0]?).getD "" = lo by simp]
    rw [hpart]
    simp only [hex]
    have hsim : (if mode = true ∧ ([o] : List DOpt) = [] then
        options.filter (longPrefixCandidate lo)
        else [o]) = [o] := by simp
    rw [hsim]
    simp [hac, Value.truthy]
  · intro o hmode hex hpref hac
    unfold parseLong
    simp only [Tokens.pop]
    rw [if_pos (by simp)]
    simp only [bind, Except.bind]
    simp only [List.getD, List.get?_eq_getElem?]
    rw [show ((lo :: rest)[0]?).getD "" = lo by simp]
    rw [hpart]
    simp only [hex, hpref, hmode]
    simp [hac, Value.truthy]
  · intro hmode hex hlen
    unfold parseLong
    simp only [Tokens.pop]
    rw [if_pos (by simp)]
    simp only [bind, Except.bind]
    simp only [List.getD, List.get?_eq_getElem?]
    rw [show ((lo :: rest)[0]?).getD "" = lo by simp]
    rw [hpart]
    simp only [hex, hmode]
    simp only [and_self, List.nil_eq, if_true, reduceIte]
    rw [if_pos (by omega)]
  · intro hmode hex hpref
    unfold parseLong
    simp only [Tokens.pop]
    rw [if_pos (by simp)]
    simp only [bind, Except.bind]
    simp only [List.getD, List.get?_eq_getElem?]
    rw [show ((lo :: rest)[0]?).getD "" = lo by simp]
    rw [hpart]
    simp only [hex, hpref, hmode]
    simp [mkOption]
  · intro hmode hex
    unfold parseLong
    simp only [Tokens.pop]
    rw [if_pos (by simp)]
    simp only [bind, Except.bind]
    simp only [List.getD, List.get?_eq_getElem?]
    rw [show ((lo :: rest)[0]?).getD "" = lo by simp]
    rw [hpart]
    simp only [hex, hmode]
    simp [mkOption]

theorem long_option_resolution_witness :
    partitionStr "--ver" "=" = ("--ver", "", "") ∧
    ([⟨"", "--verbose", 0, .bool false⟩] : List DOpt).filter
      (fun x => x.longOpt == "--ver") = [] ∧
    ([⟨"", "--verbose", 0, .bool false⟩] : List DOpt).filter
      (longPrefixCandidate "--ver") = [⟨"", "--verbose", 0, .bool false⟩] ∧
    parseLong ⟨["--ver"], 0, true⟩ [⟨"", "--verbose", 0, .bool false⟩] =
      .ok ([⟨"", "--verbose", 0, .bool false⟩],
        [.option "" "--verbose" 0 (.bool true)], ⟨["--ver"], 1, true⟩) :=
  ⟨by decide, by decide, by decide,
   (long_option_resolution "--ver" [] true [⟨"", "--verbose", 0, .bool false⟩]
     (by decide)).2.1 ⟨"", "--verbose", 0, .bool false⟩ rfl (by decide)
     (by decide) (by decide)⟩

theorem ddash_emits_positionals_witness :
    parseArgvLoop 1 ⟨["--", "x"], 0, true⟩ [] false [] =
      .ok ([], [.argument "" (.str "--"), .argument "" (.str "x")]) ∧
    docoptParseMatch (.required [.command "--" (.bool false),
        .argument "<a>" .empty]) ["--", "x"]
      [.argument "" (.str "--"), .argument "" (.str "x")] =
      .ok [("--", .bool true), ("<a>", .str "x")] ∧
    (matchPattern (Pattern.fix (.required [.command "--" (.bool false),
        .argument "<a>" .empty]))
      [.argument "" (.str "--"), .argument "" (.str "x")] []).2.1 = [] := by
  refine ⟨?_, by decide, ?_⟩
  · have h := (ddash_emits_positionals [] ["x"] [] false 0 []).1
    simpa using h
  · exact (ddash_emits_positionals [] ["x"] [] false 0 []).2
      (.required [.command "--" (.bool false), .argument "<a>" .empty])
      ["--", "x"] [("--", .bool true), ("<a>", .str "x")] (by decide)

/-! ## C8: section extraction and the usage-section count -/
/-- Every group the section scan returns opens with a line containing the
name case-insensitively, followed only by indented continuation lines. -/
theorem gatherSections_shape (nameL : List Char) :
    ∀ (fuel : Nat) (lines g : List (List Char)),
    g ∈ gatherSections nameL fuel lines →
    ∃ l t, g = l :: t ∧ lineContainsCI nameL l = true ∧
      ∀ x ∈ t, isContinuationLine x = true := by
  intro fuel
  induction fuel with
  | zero =>
    intro lines g hg
    simp only [gatherSections] at hg
    cases hg
  | succ fuel ih =>
    intro lines g hg
    cases lines with
    | nil =>
      simp only [gatherSections] at hg
      cases hg
    | cons l ls =>
      simp only [gatherSections] at hg
      by_cases hc : lineContainsCI nameL l = true
      · rw [if_pos hc] at hg
        rcases List.mem_cons.mp hg with h1 | h2
        · refine ⟨l, ls.takeWhile isContinuationLine, h1, hc, ?_⟩
          intro x hx
          exact List.mem_takeWhile_imp hx
        · exact ih _ _ h2
      · rw [if_neg hc] at hg
        exact ih _ _ hg

/-- **C8 (amended).**  Section extraction locates, case-insensitively, the
lines *containing* the section name — not only those beginning with it —
together with their indented continuation lines (each extracted section is
such a group, trimmed); and `docopt_parse` throws `DocoptLanguageError`
both when the doc yields no `usage:` section and when it yields more than
one. -/
theorem section_extraction_amended (name doc : String) :
    (∀ s ∈ parseSection name doc, ∃ l t,
      lineContainsCI (name.data.map Char.toLower) l = true ∧
      (∀ x ∈ t, isContinuationLine x = true) ∧
      s = trim (String.mk (joinLines (l :: t)))) ∧
    (parseSection "usage:" doc = [] →
      createPatternTree doc =
        .error (.languageError "'usage:' (case-insensitive) not found.")) ∧
    (2 ≤ (parseSection "usage:" doc).length →
      createPatternTree doc =
        .error (.languageError "More than one 'usage:' (case-insensitive).")) := by
  refine ⟨?_, ?_, ?_⟩
  · intro s hs
    simp only [parseSection, List.mem_map] at hs
    obtain ⟨g, hg, hsg⟩ := hs
    obtain ⟨l, t, rfl, hc, ht⟩ := gatherSections_shape _ _ _ _ hg
    exact ⟨l, t, hc, ht, hsg.symm⟩
  · intro h
    unfold createPatternTree
    rw [h]
  · intro h
    rcases hl : parseSection "usage:" doc with _ | ⟨x, _ | ⟨y, rest⟩⟩
    · rw [hl] at h; simp at h
    · rw [hl] at h; simp at h
    · unfold createPatternTree
      rw [hl]

theorem section_extraction_amended_witness :
    createPatternTree "no colon here" =
      .error (.languageError "'usage:' (case-insensitive) not found.") :=
  (section_extraction_amended "usage:" "no colon here").2.1 (by decide)

/-- **C8 (counterexample).**  The extraction matches lines that merely
contain the section name: a doc whose only line does not begin with
`usage:` (not even lowercased) still yields a usage section, and
`docopt_parse` completes successfully instead of raising the not-found
language error the begins-with reading predicts. -/
theorem section_contains_counterexample :
    parseSection "usage:" "xx usage: prog" = ["xx usage: prog"] ∧
    strStartsWith (String.mk ("xx usage: prog".data.map Char.toLower))
      "usage:" = false ∧
    docoptParse "xx usage: prog" [] true true false = .ok [] :=
  ⟨by decide, by decide, by decide⟩

/-! ## C9: unmatched brackets in the usage text -/
/-- **C9.**  A usage text with an unmatched opening bracket is *not*
always reported as a language error: for the unmatched square bracket the
popped trailing token mismatches and `parse_atom` raises the mismatch
language error, but for an unmatched parenthesis `parse_atom` pops past
the end of the stream, and the resulting `std::out_of_range` escapes
`docopt_parse` uncaught. -/
theorem unmatched_bracket_outcomes :
    docoptParse "usage: prog (" [] true true false = .error .outOfRange ∧
    docoptParse "usage: prog [" [] true true false =
      .error (.languageError "Mismatched '['") :=
  ⟨by decide, by decide⟩

/-! ## C6: short-option cluster equivalence -/
/-- `docopt_parse` returns a given result map for one argv exactly when it
does for another argv producing the same argv patterns: the argv list
itself only feeds the text of the unexpected-argument error. -/
theorem docoptParseMatch_ok_iff (p : Pattern) (a1 a2 : List String)
    (ps : List Pattern) (m : List (String × Value)) :
    docoptParseMatch p a1 ps = .ok m ↔ docoptParseMatch p a2 ps = .ok m := by
  simp only [docoptParseMatch]
  by_cases hc : ((matchPattern (Pattern.fix p) ps []).1 = true ∧
      (matchPattern (Pattern.fix p) ps []).2.1 = [])
  · rw [if_pos hc, if_pos hc]
  · rw [if_neg hc, if_neg hc]
    constructor <;> intro h <;> (split at h <;> cases h)

/-- **C6.**  For every doc that declares the no-argument short options
`-a` and `-b` (each exactly once in the catalog the pattern tree is built
with), parsing the clustered argv `["-ab"]` yields exactly the same result
map as parsing the split argv `["-a", "-b"]`, and fails in exactly the
same cases (the two can differ only in the token list quoted by the
unexpected-argument message). -/
theorem short_cluster_equivalence (doc : String) (help version optFirst : Bool)
    (t : Pattern) (opts : List DOpt) (oa ob : DOpt)
    (m : List (String × Value))
    (hct : createPatternTree doc = .ok (t, opts))
    (ha : opts.filter (fun x => x.shortOpt == "-a") = [oa])
    (ha0 : oa.argcount = 0)
    (hb : opts.filter (fun x => x.shortOpt == "-b") = [ob])
    (hb0 : ob.argcount = 0) :
    docoptParse doc ["-ab"] help version optFirst = .ok m ↔
      docoptParse doc ["-a", "-b"] help version optFirst = .ok m := by
  unfold docoptParse
  rw [hct]
  simp only [parseArgv_cluster_ab opts oa ob optFirst ha ha0 hb hb0,
    parseArgv_split_ab opts oa ob optFirst ha ha0 hb hb0]
  cases hex : extras help version [(oa.setVal (Value.bool true)).toPattern,
      (ob.setVal (Value.bool true)).toPattern] with
  | error e => exact Iff.rfl
  | ok u => exact docoptParseMatch_ok_iff t _ _ _ m

theorem short_cluster_equivalence_witness :
    docoptParse "usage: prog [-a] [-b]" ["-ab"] true true false =
        .ok [("-a", .bool true), ("-b", .bool true)] ↔
      docoptParse "usage: prog [-a] [-b]" ["-a", "-b"] true true false =
        .ok [("-a", .bool true), ("-b", .bool true)] :=
  short_cluster_equivalence "usage: prog [-a] [-b]" true true false
    (.required [.required [.optional [.option "-a" "" 0 (.bool false)],
      .optional [.option "-b" "" 0 (.bool false)]]])
    [⟨"-a", "", 0, .bool false⟩, ⟨"-b", "", 0, .bool false⟩]
    ⟨"-a", "", 0, .bool false⟩ ⟨"-b", "", 0, .bool false⟩
    [("-a", .bool true), ("-b", .bool true)]
    (by decide) (by decide) (by decide) (by decide) (by decide)

/-! ## C1: the result map, its keys and its defaults -/
/-- A hit of `lastNamed` is an element of the list. -/
theorem lastNamed_mem : ∀ (ps : List Pattern) (k : String) (q : Pattern),
    lastNamed ps k = some q → q ∈ ps := by
  intro ps
  induction ps with
  | nil => intro k q h; cases h
  | cons p rest ih =>
    intro k q h
    simp only [lastNamed] at h
    cases hr : lastNamed rest k with
    | some r =>
      rw [hr] at h
      cases h
      exact List.mem_cons_of_mem _ (ih _ _ hr)
    | none =>
      rw [hr] at h
      by_cases hp : p.pname = k
      · rw [if_pos hp] at h
        cases h
        exact List.mem_cons_self _ _
      · rw [if_neg hp] at h
        cases h

/-- **C1 (amended).**  Whenever `docopt_parse` returns a result map, the
map is the fold of the normalized tree leaves overlaid with the collected
leaves, its key set equals the set of leaf names of the normalized tree,
and the value at each key is the last collected leaf of that name when one
exists (collected wins), else the last tree leaf's *post-normalization
value* — which for a list-promoted leaf with a string default is the
whitespace-split default, not necessarily the empty list. -/
theorem result_map_amended (doc : String) (argv : List String)
    (help version optFirst : Bool) (m : List (String × Value))
    (pattern : Pattern) (options opts2 : List DOpt)
    (argvPatterns : List Pattern)
    (hct : createPatternTree doc = .ok (pattern, options))
    (hpa : parseArgv ⟨argv, 0, true⟩ options optFirst = .ok (opts2, argvPatterns))
    (h : docoptParse doc argv help version optFirst = .ok m) :
    (matchPattern (Pattern.fix pattern) argvPatterns []).1 = true ∧
    (matchPattern (Pattern.fix pattern) argvPatterns []).2.1 = [] ∧
    m = buildResultMap (Pattern.fix pattern)
          (matchPattern (Pattern.fix pattern) argvPatterns []).2.2 ∧
    (∀ k, (mapLookup m k).isSome = true ↔
      k ∈ (leaves (Pattern.fix pattern)).map Pattern.pname) ∧
    (∀ k, mapLookup m k =
      match lastNamed
          (matchPattern (Pattern.fix pattern) argvPatterns []).2.2 k with
      | some q => some q.pvalue
      | none => (lastNamed (leaves (Pattern.fix pattern)) k).map
          Pattern.pvalue) := by
  unfold docoptParse at h
  rw [hct] at h
  simp only [hpa] at h
  cases hex : extras help version argvPatterns with
  | error e => rw [hex] at h; cases h
  | ok u =>
    rw [hex] at h
    simp only [docoptParseMatch] at h
    by_cases hc : ((matchPattern (Pattern.fix pattern) argvPatterns []).1 = true ∧
        (matchPattern (Pattern.fix pattern) argvPatterns []).2.1 = [])
    · rw [if_pos hc] at h
      cases h
      refine ⟨hc.1, hc.2, rfl, ?_, ?_⟩
      · intro k
        rw [buildResultMap_lookup]
        cases hcol : lastNamed
            (matchPattern (Pattern.fix pattern) argvPatterns []).2.2 k with
        | some q =>
          simp only [Option.isSome_some, true_iff]
          have hq := lastNamed_mem _ _ _ hcol
          have hn := matchPatternF_collected_names (psize (Pattern.fix pattern))
            (Pattern.fix pattern) argvPatterns [] q hq
          rcases hn with hn | hn
          · rw [← lastNamed_pname hcol]; exact hn
          · simp at hn
        | none =>
          cases hlv : lastNamed (leaves (Pattern.fix pattern)) k with
          | some q =>
            simp only [Option.map_some, Option.isSome_some, true_iff]
            by_contra hk
            rw [(lastNamed_eq_none_iff _ _).mpr hk] at hlv
            cases hlv
          | none =>
            simp only [Option.map_none, Option.isSome_none]
            constructor
            · intro hfalse; cases hfalse
            · intro hk
              exact absurd hk ((lastNamed_eq_none_iff _ _).mp hlv)
      · intro k
        rw [buildResultMap_lookup]
        cases lastNamed (matchPattern (Pattern.fix pattern) argvPatterns []).2.2 k <;>
          cases lastNamed (leaves (Pattern.fix pattern)) k <;> rfl
    · rw [if_neg hc] at h
      split at h <;> cases h

theorem result_map_amended_witness :
    [("-a", Value.bool true), ("-b", Value.bool false)] =
      buildResultMap
        (Pattern.fix (.required [.required
          [.optional [.option "-a" "" 0 (.bool false)],
           .optional [.option "-b" "" 0 (.bool false)]]]))
        (matchPattern
          (Pattern.fix (.required [.required
            [.optional [.option "-a" "" 0 (.bool false)],
             .optional [.option "-b" "" 0 (.bool false)]]]))
          [.option "-a" "" 0 (.bool true)] []).2.2 :=
  (result_map_amended "usage: prog [-a] [-b]" ["-a"] true true false
    [("-a", .bool true), ("-b", .bool false)]
    (.required [.required [.optional [.option "-a" "" 0 (.bool false)],
      .optional [.option "-b" "" 0 (.bool false)]]])
    [⟨"-a", "", 0, .bool false⟩, ⟨"-b", "", 0, .bool false⟩]
    [⟨"-a", "", 0, .bool false⟩, ⟨"-b", "", 0, .bool false⟩]
    [.option "-a" "" 0 (.bool true)]
    (by decide) (by decide) (by decide)).2.2.1

/-- **C1 (counterexample).**  A list-promoted option leaf with the default
tag `[default: a b]` that argv never mentions appears in the result map
with the whitespace-split default `List(["a", "b"])`, not the empty list
the claim gives for unmatched list-promoted leaves. -/
theorem default_list_counterexample :
    docoptParse "usage: prog [--x=<v>]...\n\noptions:\n  --x=<v>  d [default: a b]"
      [] true true false = .ok [("--x", .strList ["a", "b"])] ∧
    Value.strList ["a", "b"] ≠ .strList [] :=
  ⟨by decide, by decide⟩

/-! ## C7: the expansion worklist and the repeated-leaf promotion -/
theorem splitAtBranch_none : ∀ (g : List Pattern),
    (∀ p ∈ g, p.isBranch = false) → splitAtBranch g = none := by
  intro g
  induction g with
  | nil => intro h; rfl
  | cons p ps ih =>
    intro h
    simp only [splitAtBranch]
    rw [if_neg (by simp [h p (List.mem_cons_self _ _)])]
    rw [ih (fun q hq => h q (List.mem_cons_of_mem _ hq))]
    rfl

theorem splitAtBranch_decomp : ∀ (pre : List Pattern) (b : Pattern)
    (suf : List Pattern), (∀ p ∈ pre, p.isBranch = false) →
    b.isBranch = true →
    splitAtBranch (pre ++ b :: suf) = some (pre, b, suf) := by
  intro pre
  induction pre with
  | nil =>
    intro b suf h hb
    simp only [List.nil_append, splitAtBranch]
    rw [if_pos hb]
  | cons p ps ih =>
    intro b suf h hb
    have hrec := ih b suf (fun q hq => h q (List.mem_cons_of_mem _ hq)) hb
    simp only [List.cons_append, splitAtBranch]
    rw [if_neg (by simp [h p (List.mem_cons_self _ _)])]
    simp [hrec]

theorem splitAtBranch_eq : ∀ (g : List Pattern) (pre : List Pattern)
    (b : Pattern) (suf : List Pattern),
    splitAtBranch g = some (pre, b, suf) →
    g = pre ++ b :: suf ∧ b.isBranch = true := by
  intro g
  induction g with
  | nil => intro pre b suf h; cases h
  | cons p ps ih =>
    intro pre b suf h
    simp only [splitAtBranch] at h
    by_cases hp : p.isBranch = true
    · rw [if_pos hp] at h
      cases h
      exact ⟨rfl, hp⟩
    · rw [if_neg hp] at h
      cases hsb : splitAtBranch ps with
      | none => rw [hsb] at h; cases h
      | some r =>
        rw [hsb] at h
        obtain ⟨pre2, b2, suf2⟩ := r
        cases h
        obtain ⟨he, hb⟩ := ih _ _ _ hsb
        exact ⟨by rw [List.cons_append, ← he], hb⟩

theorem transformAux_step_either (fuel : Nat) (pre cs suf : List Pattern)
    (rest : List (List Pattern)) (hpre : ∀ p ∈ pre, p.isBranch = false) :
    transformAux (fuel + 1) ((pre ++ .either cs :: suf) :: rest) =
      transformAux fuel (rest ++ cs.map (fun c => c :: (pre ++ suf))) := by
  simp only [transformAux]
  rw [splitAtBranch_decomp pre (.either cs) suf hpre rfl]

theorem transformAux_step_oneOrMore (fuel : Nat) (pre cs suf : List Pattern)
    (rest : List (List Pattern)) (hpre : ∀ p ∈ pre, p.isBranch = false) :
    transformAux (fuel + 1) ((pre ++ .oneOrMore cs :: suf) :: rest) =
      transformAux fuel (rest ++ [cs ++ cs ++ pre ++ suf]) := by
  simp only [transformAux]
  rw [splitAtBranch_decomp pre (.oneOrMore cs) suf hpre rfl]

theorem transformAux_step_other (fuel : Nat) (pre : List Pattern)
    (b : Pattern) (cs suf : List Pattern) (rest : List (List Pattern))
    (hpre : ∀ p ∈ pre, p.isBranch = false)
    (hb : b = .required cs ∨ b = .optional cs ∨ b = .optionsShortcut cs) :
    transformAux (fuel + 1) ((pre ++ b :: suf) :: rest) =
      transformAux fuel (rest ++ [cs ++ pre ++ suf]) := by
  rcases hb with rfl | rfl | rfl
  · simp only [transformAux]
    rw [splitAtBranch_decomp pre (.required cs) suf hpre rfl]
    rfl
  · simp only [transformAux]
    rw [splitAtBranch_decomp pre (.optional cs) suf hpre rfl]
    rfl
  · simp only [transformAux]
    rw [splitAtBranch_decomp pre (.optionsShortcut cs) suf hpre rfl]
    rfl

theorem transformAux_step_done (fuel : Nat) (g : List Pattern)
    (rest : List (List Pattern)) (hg : ∀ p ∈ g, p.isBranch = false) :
    transformAux (fuel + 1) (g :: rest) = g :: transformAux fuel rest := by
  simp only [transformAux]
  rw [splitAtBranch_none g hg]

theorem fixRepeating_eq (t : Pattern) :
    fixRepeatingArguments t =
      mapLeaves (promoteIfRep (transform t.children)) t := rfl

theorem promote_leaves_single (groups : List (List Pattern)) :
    ∀ p : Pattern, p.isLeaf = true →
    leaves (promoteIfRep groups p) = [promoteIfRep groups p] := by
  intro p hp
  unfold promoteIfRep
  by_cases hr : isRepeatedIn groups p = true
  · rw [if_pos hr]
    cases p with
    | argument n v => cases v <;> simp [promoteLeaf, leaves]
    | command n v => simp [promoteLeaf, leaves]
    | option s l a v =>
      by_cases ha : a = 0
      · subst ha
        simp [promoteLeaf, leaves]
      · cases v <;> simp [promoteLeaf, leaves, ha]
    | required cs => simp [Pattern.isLeaf] at hp
    | optional cs => simp [Pattern.isLeaf] at hp
    | optionsShortcut cs => simp [Pattern.isLeaf] at hp
    | oneOrMore cs => simp [Pattern.isLeaf] at hp
    | either cs => simp [Pattern.isLeaf] at hp
  · rw [if_neg hr]
    cases p with
    | argument n v => rfl
    | command n v => rfl
    | option s l a v => rfl
    | required cs => simp [Pattern.isLeaf] at hp
    | optional cs => simp [Pattern.isLeaf] at hp
    | optionsShortcut cs => simp [Pattern.isLeaf] at hp
    | oneOrMore cs => simp [Pattern.isLeaf] at hp
    | either cs => simp [Pattern.isLeaf] at hp

theorem leavesL_mapLeavesL_promote (groups : List (List Pattern)) :
    ∀ (n : Nat) (l : List Pattern), psizeL l ≤ n →
    leavesL (mapLeavesL (promoteIfRep groups) l) =
      (leavesL l).map (promoteIfRep groups) := by
  intro n
  induction n with
  | zero =>
    intro l hl
    cases l with
    | nil => rfl
    | cons p ps =>
      exfalso
      have h1 := psize_pos p
      simp only [psizeL] at hl
      omega
  | succ n ih =>
    intro l hl
    cases l with
    | nil => rfl
    | cons p ps =>
      simp only [psizeL] at hl
      have h1 := psize_pos p
      have hps : psizeL ps ≤ n := by omega
      have hhead : leaves (mapLeaves (promoteIfRep groups) p) =
          (leaves p).map (promoteIfRep groups) := by
        cases p with
        | argument nm v =>
          show leaves (promoteIfRep groups (.argument nm v)) = _
          rw [promote_leaves_single groups (.argument nm v) rfl]
          rfl
        | command nm v =>
          show leaves (promoteIfRep groups (.command nm v)) = _
          rw [promote_leaves_single groups (.command nm v) rfl]
          rfl
        | option s lo a v =>
          show leaves (promoteIfRep groups (.option s lo a v)) = _
          rw [promote_leaves_single groups (.option s lo a v) rfl]
          rfl
        | required cs =>
          have hcs : psizeL cs ≤ n := by simp only [psize] at hl; omega
          show leavesL (mapLeavesL (promoteIfRep groups) cs) =
            (leavesL cs).map (promoteIfRep groups)
          exact ih cs hcs
        | optional cs =>
          have hcs : psizeL cs ≤ n := by simp only [psize] at hl; omega
          show leavesL (mapLeavesL (promoteIfRep groups) cs) =
            (leavesL cs).map (promoteIfRep groups)
          exact ih cs hcs
        | optionsShortcut cs =>
          have hcs : psizeL cs ≤ n := by simp only [psize] at hl; omega
          show leavesL (mapLeavesL (promoteIfRep groups) cs) =
            (leavesL cs).map (promoteIfRep groups)
          exact ih cs hcs
        | oneOrMore cs =>
          have hcs : psizeL cs ≤ n := by simp only [psize] at hl; omega
          show leavesL (mapLeavesL (promoteIfRep groups) cs) =
            (leavesL cs).map (promoteIfRep groups)
          exact ih cs hcs
        | either cs =>
          have hcs : psizeL cs ≤ n := by simp only [psize] at hl; omega
          show leavesL (mapLeavesL (promoteIfRep groups) cs) =
            (leavesL cs).map (promoteIfRep groups)
          exact ih cs hcs
      simp only [mapLeavesL, leavesL, List.map_append, hhead]
      rw [ih ps hps]

theorem leaves_fixRepeating (t : Pattern) :
    leaves (fixRepeatingArguments t) =
      (leaves t).map (promoteIfRep (transform t.children)) := by
  have h := leavesL_mapLeavesL_promote (transform t.children)
    (psizeL [t]) [t] le_rfl
  simp only [mapLeavesL, leavesL, List.append_nil, List.map_append] at h
  rw [fixRepeating_eq]
  exact h

theorem psizeL_append (a b : List Pattern) :
    psizeL (a ++ b) = psizeL a + psizeL b := by
  induction a with
  | nil => simp [psizeL]
  | cons p ps ih =>
    show psize p + psizeL (ps ++ b) = psizeL (p :: ps) + psizeL b
    rw [ih]
    simp only [psizeL]
    omega

theorem pow_psize_sum_lt (cs : List Pattern) :
    ((cs.map (fun c => 3 ^ psize c)).sum) < 3 ^ (psizeL cs + 1) := by
  induction cs with
  | nil => simp
  | cons c cs ih =>
    simp only [List.map_cons, List.sum_cons, psizeL]
    have h1 : (3:Nat) ^ psize c ≤ 3 ^ (psize c + psizeL cs) :=
      Nat.pow_le_pow_right (by omega) (by omega)
    have h2 : (3:Nat) ^ (psizeL cs + 1) ≤ 3 ^ (psize c + psizeL cs) :=
      Nat.pow_le_pow_right (by omega) (by have := psize_pos c; omega)
    have h4 : (3:Nat) ^ (psize c + psizeL cs + 1) =
        3 ^ (psize c + psizeL cs) * 3 := by rw [Nat.pow_succ]
    omega

theorem groupsMeasure_append (a b : List (List Pattern)) :
    groupsMeasure (a ++ b) = groupsMeasure a + groupsMeasure b := by
  simp [groupsMeasure]

theorem groupsMeasure_map_cons (cs : List Pattern) (tl : List Pattern) :
    groupsMeasure (cs.map (fun c => c :: tl)) =
      ((cs.map (fun c => 3 ^ psize c)).sum) * 3 ^ psizeL tl := by
  induction cs with
  | nil => simp [groupsMeasure]
  | cons c cs ih =>
    simp only [List.map_cons, groupsMeasure, List.sum_cons] at ih ⊢
    rw [ih]
    simp only [psizeL, Nat.pow_add]
    ring

theorem transformAux_stable : ∀ (M fuel fuel2 : Nat)
    (groups : List (List Pattern)),
    groupsMeasure groups ≤ M → groupsMeasure groups ≤ fuel →
    groupsMeasure groups ≤ fuel2 →
    transformAux fuel groups = transformAux fuel2 groups := by
  intro M
  induction M with
  | zero =>
    intro fuel fuel2 groups hM h1 h2
    cases groups with
    | nil => cases fuel <;> cases fuel2 <;> rfl
    | cons g rest =>
      exfalso
      have hpos : 1 ≤ 3 ^ psizeL g := Nat.one_le_pow _ _ (by omega)
      simp only [groupsMeasure, List.map_cons, List.sum_cons] at hM
      omega
  | succ M ih =>
    intro fuel fuel2 groups hM h1 h2
    cases groups with
    | nil => cases fuel <;> cases fuel2 <;> rfl
    | cons g rest =>
      have hpos : 1 ≤ 3 ^ psizeL g := Nat.one_le_pow _ _ (by omega)
      have hm : groupsMeasure (g :: rest) = 3 ^ psizeL g + groupsMeasure rest := by
        simp [groupsMeasure]
      obtain ⟨f, rfl⟩ : ∃ f, fuel = f + 1 := by
        cases fuel with
        | zero => exfalso; omega
        | succ f => exact ⟨f, rfl⟩
      obtain ⟨f2, rfl⟩ : ∃ f2, fuel2 = f2 + 1 := by
        cases fuel2 with
        | zero => exfalso; omega
        | succ f2 => exact ⟨f2, rfl⟩
      cases hsb : splitAtBranch g with
      | none =>
        simp only [transformAux, hsb]
        rw [ih f f2 rest (by omega) (by omega) (by omega)]
      | some r =>
        obtain ⟨pre, b, suf⟩ := r
        obtain ⟨hge, hb⟩ := splitAtBranch_eq _ _ _ _ hsb
        have hsg : psizeL g = psizeL pre + psize b + psizeL suf := by
          rw [hge, psizeL_append]
          simp only [psizeL]
          omega
        cases b with
        | argument n v => simp [Pattern.isBranch, Pattern.isLeaf] at hb
        | command n v => simp [Pattern.isBranch, Pattern.isLeaf] at hb
        | option s l a v => simp [Pattern.isBranch, Pattern.isLeaf] at hb
        | either cs =>
          simp only [transformAux, hsb]
          have hdec : groupsMeasure (rest ++ cs.map (fun c => c :: (pre ++ suf))) <
              groupsMeasure (g :: rest) := by
            rw [groupsMeasure_append, groupsMeasure_map_cons, hm]
            have hs := pow_psize_sum_lt cs
            have hmul : ((cs.map (fun c => 3 ^ psize c)).sum) * 3 ^ psizeL (pre ++ suf) <
                3 ^ (psizeL cs + 1) * 3 ^ psizeL (pre ++ suf) :=
              (Nat.mul_lt_mul_right (Nat.pos_pow_of_pos _ (by omega))).mpr hs
            have hle : (3:Nat) ^ (psizeL cs + 1) * 3 ^ psizeL (pre ++ suf) ≤
                3 ^ psizeL g := by
              rw [← Nat.pow_add]
              apply Nat.pow_le_pow_right (by omega)
              rw [hsg, psizeL_append]
              simp only [psize]
              omega
            omega
          exact ih f f2 _ (by omega) (by omega) (by omega)
        | oneOrMore cs =>
          simp only [transformAux, hsb]
          have hdec : groupsMeasure (rest ++ [cs ++ cs ++ pre ++ suf]) <
              groupsMeasure (g :: rest) := by
            rw [groupsMeasure_append, hm]
            have : groupsMeasure [cs ++ cs ++ pre ++ suf] < 3 ^ psizeL g := by
              simp only [groupsMeasure, List.map_cons, List.map_nil,
                List.sum_cons, List.sum_nil, Nat.add_zero]
              apply Nat.pow_lt_pow_right (by omega)
              rw [psizeL_append, psizeL_append, psizeL_append, hsg]
              simp only [psize]
              omega
            omega
          exact ih f f2 _ (by omega) (by omega) (by omega)
        | required cs =>
          simp only [transformAux, hsb, Pattern.children]
          have hdec : groupsMeasure (rest ++ [cs ++ pre ++ suf]) <
              groupsMeasure (g :: rest) := by
            rw [groupsMeasure_append, hm]
            have : groupsMeasure [cs ++ pre ++ suf] < 3 ^ psizeL g := by
              simp only [groupsMeasure, List.map_cons, List.map_nil,
                List.sum_cons, List.sum_nil, Nat.add_zero]
              apply Nat.pow_lt_pow_right (by omega)
              rw [psizeL_append, psizeL_append, hsg]
              simp only [psize]
              omega
            omega
          exact ih f f2 _ (by omega) (by omega) (by omega)
        | optional cs =>
          simp only [transformAux, hsb, Pattern.children]
          have hdec : groupsMeasure (rest ++ [cs ++ pre ++ suf]) <
              groupsMeasure (g :: rest) := by
            rw [groupsMeasure_append, hm]
            have : groupsMeasure [cs ++ pre ++ suf] < 3 ^ psizeL g := by
              simp only [groupsMeasure, List.map_cons, List.map_nil,
                List.sum_cons, List.sum_nil, Nat.add_zero]
              apply Nat.pow_lt_pow_right (by omega)
              rw [psizeL_append, psizeL_append, hsg]
              simp only [psize]
              omega
            omega
          exact ih f f2 _ (by omega) (by omega) (by omega)
        | optionsShortcut cs =>
          simp only [transformAux, hsb, Pattern.children]
          have hdec : groupsMeasure (rest ++ [cs ++ pre ++ suf]) <
              groupsMeasure (g :: rest) := by
            rw [groupsMeasure_append, hm]
            have : groupsMeasure [cs ++ pre ++ suf] < 3 ^ psizeL g := by
              simp only [groupsMeasure, List.map_cons, List.map_nil,
                List.sum_cons, List.sum_nil, Nat.add_zero]
              apply Nat.pow_lt_pow_right (by omega)
              rw [psizeL_append, psizeL_append, hsg]
              simp only [psize]
              omega
            omega
          exact ih f f2 _ (by omega) (by omega) (by omega)

theorem transform_fuel_sufficient (pattern : List Pattern) (fuel : Nat)
    (h : groupsMeasure [pattern] ≤ fuel) :
    transformAux fuel [pattern] = transform pattern := by
  unfold transform
  apply transformAux_stable (groupsMeasure [pattern]) fuel _ _ le_rfl h
  simp only [groupsMeasure, List.map_cons, List.map_nil, List.sum_cons,
    List.sum_nil]
  omega

/-- **C7.**  The expansion and promotion of `fix_repeating_arguments`: the
worklist step of `transform` removes the first branch node of the first
group — each `Either` child yields one new group, `OneOrMore` contributes
its child list doubled, any other branch contributes its plain child
list, and a branch-free group is emitted as a finished alternative — and
in the tree exactly the leaves occurring at least twice in some
alternative are promoted: `Command` and zero-argcount `Option` to
`Int(0)`, `Argument` and positive-argcount `Option` to a list, a previous
`Str` value being whitespace-tokenized into it. -/
theorem fix_repeating_expansion_promotion :
    (∀ (fuel : Nat) (pre cs suf : List Pattern) (rest : List (List Pattern)),
      (∀ p ∈ pre, p.isBranch = false) →
      transformAux (fuel + 1) ((pre ++ .either cs :: suf) :: rest) =
        transformAux fuel (rest ++ cs.map (fun c => c :: (pre ++ suf)))) ∧
    (∀ (fuel : Nat) (pre cs suf : List Pattern) (rest : List (List Pattern)),
      (∀ p ∈ pre, p.isBranch = false) →
      transformAux (fuel + 1) ((pre ++ .oneOrMore cs :: suf) :: rest) =
        transformAux fuel (rest ++ [cs ++ cs ++ pre ++ suf])) ∧
    (∀ (fuel : Nat) (pre : List Pattern) (b : Pattern) (cs suf : List Pattern)
      (rest : List (List Pattern)), (∀ p ∈ pre, p.isBranch = false) →
      (b = .required cs ∨ b = .optional cs ∨ b = .optionsShortcut cs) →
      transformAux (fuel + 1) ((pre ++ b :: suf) :: rest) =
        transformAux fuel (rest ++ [cs ++ pre ++ suf])) ∧
    (∀ (fuel : Nat) (g : List Pattern) (rest : List (List Pattern)),
      (∀ p ∈ g, p.isBranch = false) →
      transformAux (fuel + 1) (g :: rest) = g :: transformAux fuel rest) ∧
    (∀ t : Pattern, leaves (fixRepeatingArguments t) =
      (leaves t).map (promoteIfRep (transform t.children))) ∧
    (∀ (groups : List (List Pattern)) (e : Pattern),
      isRepeatedIn groups e = true ↔ ∃ g ∈ groups, 2 ≤ g.count e) ∧
    (∀ n v, promoteLeaf (.command n v) = .command n (.long 0)) ∧
    (∀ s l v, promoteLeaf (.option s l 0 v) = .option s l 0 (.long 0)) ∧
    (∀ n s, promoteLeaf (.argument n (.str s)) =
      .argument n (.strList (splitWS s))) ∧
    (∀ s l a st, a ≠ 0 → promoteLeaf (.option s l a (.str st)) =
      .option s l a (.strList (splitWS st))) := by
  refine ⟨transformAux_step_either, transformAux_step_oneOrMore,
    transformAux_step_other, transformAux_step_done, leaves_fixRepeating,
    ?_, ?_, ?_, ?_, ?_⟩
  · intro groups e
    simp [isRepeatedIn, List.any_eq_true]
  · intro n v
    rfl
  · intro s l v
    simp [promoteLeaf]
  · intro n s
    rfl
  · intro s l a st ha
    simp [promoteLeaf, ha]

theorem fix_repeating_expansion_promotion_witness :
    transformAux 2 ([[.command "c" (.bool false),
        .either [.argument "A" .empty, .argument "B" .empty]]]) =
      transformAux 1 ([] ++ [Pattern.argument "A" .empty,
        .argument "B" .empty].map
        (fun c => c :: ([.command "c" (.bool false)] ++ []))) :=
  fix_repeating_expansion_promotion.1 1 [.command "c" (.bool false)]
    [.argument "A" .empty, .argument "B" .empty] [] [] (by decide)

end Docopt
